import Mathlib

/-
  Verification development for the SketchFlow collaborative whiteboard
  (src/server.js and src/public/script.js).

  The JavaScript sources are shallowly embedded: JS Map objects become
  association lists that keep insertion order and have unique keys by
  construction; the socket handlers of server.js become a step function
  on an explicit server state; the client history engine, the eraser
  segmenter and the pen-delta handler of script.js become pure functions.
  Numbers that the claims depend on are embedded as Int (coordinates) and
  Nat (timestamps, counters).  The geometric comparisons of the eraser
  (Math.hypot(...) < c and distToSeg(...) < c) are decided exactly over
  the integers by comparing squares and clearing the positive denominator
  of the projection parameter: the distances are nonnegative and squaring
  is monotone on nonnegative reals, so no square root or float is needed.
-/

namespace SketchFlow

/-! ### JS Map embedding

A JS Map is an insertion-ordered collection with unique keys.  `jset` on an
existing key replaces the value in place (keeping the position), otherwise it
appends at the end, exactly like Map.prototype.set.  `jdel` removes the entry
of the key, `jget` looks a key up. -/

def jget {α : Type} : List (String × α) → String → Option α
  | [], _ => none
  | p :: m, k => if p.1 = k then some p.2 else jget m k

def jset {α : Type} : List (String × α) → String → α → List (String × α)
  | [], k, v => [(k, v)]
  | p :: m, k, v => if p.1 = k then (k, v) :: m else p :: jset m k v

def jdel {α : Type} : List (String × α) → String → List (String × α)
  | [], _ => []
  | p :: m, k => if p.1 = k then jdel m k else p :: jdel m k

def jhas {α : Type} (m : List (String × α)) (k : String) : Bool :=
  (jget m k).isSome

/-! ### Element model (server side)

server.js reads only `el.id`, `el.type` and (in the text-preview handler)
`el.text` of an element object; every other field travels through the server
opaquely.  We therefore embed an element as those three fields plus an opaque
key/value list `props` standing for the remaining JSON fields (geometry,
style, points, ...).  `text : Option String` models a possibly absent JS
field (`none` = undefined). -/

structure Element where
  id : String
  type : String
  text : Option String := none
  props : List (String × String) := []
deriving DecidableEq, Repr

-- const VALID_TYPES = new Set([...])
def VALID_TYPES : List String :=
  ["pen", "rectangle", "ellipse", "line", "arrow", "text", "image"]

/-- function validElement(el) of server.js.  The checks `el` is an object and
`el.id` is a string are discharged by typing; the remaining checks are the
length bound and the type whitelist. -/
def validElement (el : Element) : Bool :=
  decide (el.id.length ≤ 64) && VALID_TYPES.contains el.type

/-! ### Presence, rooms, rate buckets, server state -/

structure Presence where
  name : String
  color : String
  cursor : Option (Int × Int) := none
deriving DecidableEq, Repr

structure Room where
  elements : List (String × Element)
  users : List (String × Presence)
  createdAt : Nat
deriving DecidableEq, Repr

structure Bucket where
  count : Nat
  reset : Nat
deriving DecidableEq, Repr

/-- The whole mutable server state: the room table and the rate-bucket table
(both process-wide Maps in server.js), plus the per-connection closure
variable `roomId` of each live socket (`conns`) and the pending
empty-room-deletion timeouts scheduled by the disconnect handler
(`timers`, pairs of captured room id and absolute fire time). -/
structure ServerState where
  rooms : List (String × Room)
  rateBuckets : List (String × Bucket)
  conns : List (String × String)
  timers : List (String × Nat)
deriving DecidableEq, Repr

def initialServer : ServerState := ⟨[], [], [], []⟩

def USER_COLORS : List String :=
  ["#e03131", "#2f9e44", "#1971c2", "#9c36b5", "#e8590c",
   "#0c8599", "#6741d9", "#c2255c", "#f08c00", "#087f5b"]

/-- function pickUserColor(room): first palette color not already used in the
room.  When every color is taken the source picks a random palette entry; no
claim depends on that choice, so the fallback is embedded as the first
palette entry. -/
def pickUserColor (room : Room) : String :=
  (USER_COLORS.find? fun c => !(room.users.any fun u => u.2.color = c)).getD "#e03131"

/-- function getOrCreateRoom(roomId), with Date.now() passed in as `now`. -/
def getOrCreateRoom (rooms : List (String × Room)) (roomId : String) (now : Nat) :
    List (String × Room) × Room :=
  match jget rooms roomId with
  | some r => (rooms, r)
  | none =>
      let r : Room := ⟨[], [], now⟩
      (jset rooms roomId r, r)

/-- function rateOk(socketId, limit).  The source mutates the stored bucket
object in place (`++b.count`); the embedding returns the updated bucket table
together with the boolean verdict.  In the fresh-window branch the source
stores a zeroed bucket and then increments it, so in every branch the table
ends up holding the incremented bucket. -/
def rateOk (buckets : List (String × Bucket)) (sid : String) (now : Nat)
    (limit : Nat) : List (String × Bucket) × Bool :=
  let b : Bucket :=
    match jget buckets sid with
    | some b => if now > b.reset then ⟨0, now + 1000⟩ else b
    | none => ⟨0, now + 1000⟩
  let b2 : Bucket := ⟨b.count + 1, b.reset⟩
  (jset buckets sid b2, decide (b2.count ≤ limit))

/-! ### Messages, emissions and the server step function -/

/-- Geometry point; coordinates embedded as Int. -/
structure Pt where
  x : Int
  y : Int
deriving DecidableEq, Repr

/-- Client-to-server socket messages, with payloads typed the way the
handlers of server.js read them.  `penDelta` is included in the catalog
because the client emits it, even though server.js registers no handler
for it. -/
inductive CMsg
  | joinRoom (roomId : String) (name : Option String)
  | addElement (el : Element)
  | updateElement (el : Element)
  | drawingPreview (el : Element)
  | drawingDone (id : String)
  | textPreview (id : String) (text : Option String)
  | textLock (id : String)
  | textUnlock (id : String)
  | deleteElements (ids : List String)
  | cursorMove (x y : Int)
  | clearBoard
  | penDelta (id : String) (pts : List Pt)
deriving DecidableEq, Repr

/-- To whom the server emits an event. -/
inductive Scope
  | others (roomId : String)
  | everyone (roomId : String)
  | sender
deriving DecidableEq, Repr

/-- A server-to-client emission: scope, event name, and the payload fields a
claim could inspect. -/
inductive Emitted
  | roomState (elements : List Element) (yourId yourColor : String)
  | userJoined (roomId : String) (id name color : String)
  | elementAdded (roomId : String) (el : Element)
  | elementUpdated (roomId : String) (el : Element)
  | drawingPreviewE (roomId : String) (userId : String) (el : Element)
  | drawingDoneE (roomId : String) (userId id : String)
  | textPreviewE (roomId : String) (id : String) (text : Option String)
  | textLockE (roomId : String) (id : String)
  | textUnlockE (roomId : String) (id : String)
  | elementsDeleted (roomId : String) (ids : List String)
  | cursorMoved (roomId : String) (id : String) (x y : Int)
  | boardCleared (roomId : String)
  | userLeft (roomId : String) (id : String)
deriving DecidableEq, Repr

/-- Placeholder for the random default user name `User NNNN` chosen at
connection time; no claim depends on its value. -/
def defaultUserName : String := "User 1000"

/-- The join-room handler computes the user name: `data.name` must be a
truthy string (empty strings are falsy in JS) and is cut to 30 characters. -/
def joinName (name : Option String) : String :=
  match name with
  | some n => if n = "" then defaultUserName else n.take 30
  | none => defaultUserName

/-- One socket message dispatched by `io.on` of server.js, as a function of
the server state, the sender socket id and Date.now().  Returns the new
state and the list of emissions.  Handlers are translated clause by clause;
JS short-circuit order of the guards is preserved (in particular rateOk and
its bucket mutation happen before the room lookup and the payload
validation). -/
def handleMsg (s : ServerState) (sid : String) (now : Nat) :
    CMsg → ServerState × List Emitted
  | .joinRoom roomId name =>
      if roomId.length > 50 then (s, []) else
      let conns := jset s.conns sid roomId
      let (rooms, room) := getOrCreateRoom s.rooms roomId now
      let color := pickUserColor room
      let uname := joinName name
      let room2 : Room :=
        { room with users := jset room.users sid ⟨uname, color, none⟩ }
      ({ s with conns := conns, rooms := jset rooms roomId room2 },
       [.roomState (room.elements.map Prod.snd) sid color,
        .userJoined roomId sid uname color])
  | .addElement el =>
      match jget s.conns sid with
      | none => (s, [])
      | some roomId =>
        let (buckets, ok) := rateOk s.rateBuckets sid now 200
        let s := { s with rateBuckets := buckets }
        if !ok then (s, []) else
        if !validElement el then (s, []) else
        match jget s.rooms roomId with
        | none => (s, [])
        | some room =>
          let room2 := { room with elements := jset room.elements el.id el }
          ({ s with rooms := jset s.rooms roomId room2 }, [.elementAdded roomId el])
  | .updateElement el =>
      match jget s.conns sid with
      | none => (s, [])
      | some roomId =>
        let (buckets, ok) := rateOk s.rateBuckets sid now 200
        let s := { s with rateBuckets := buckets }
        if !ok then (s, []) else
        if !validElement el then (s, []) else
        match jget s.rooms roomId with
        | none => (s, [])
        | some room =>
          let room2 := { room with elements := jset room.elements el.id el }
          ({ s with rooms := jset s.rooms roomId room2 }, [.elementUpdated roomId el])
  | .drawingPreview el =>
      match jget s.conns sid with
      | none => (s, [])
      | some roomId =>
        let (buckets, ok) := rateOk s.rateBuckets sid now 600
        let s := { s with rateBuckets := buckets }
        if !ok then (s, []) else
        (s, [.drawingPreviewE roomId sid el])
  | .drawingDone id =>
      match jget s.conns sid with
      | none => (s, [])
      | some roomId => (s, [.drawingDoneE roomId sid id])
  | .textPreview id text =>
      match jget s.conns sid with
      | none => (s, [])
      | some roomId =>
        let (buckets, ok) := rateOk s.rateBuckets sid now 400
        let s := { s with rateBuckets := buckets }
        if !ok then (s, []) else
        let s :=
          match jget s.rooms roomId with
          | none => s
          | some room =>
            match jget room.elements id with
            | none => s
            | some stored =>
              let room2 := { room with elements := jset room.elements id ({ stored with text := text }) }
              { s with rooms := jset s.rooms roomId room2 }
        (s, [.textPreviewE roomId id text])
  | .textLock id =>
      match jget s.conns sid with
      | none => (s, [])
      | some roomId => (s, [.textLockE roomId id])
  | .textUnlock id =>
      match jget s.conns sid with
      | none => (s, [])
      | some roomId => (s, [.textUnlockE roomId id])
  | .deleteElements ids =>
      match jget s.conns sid with
      | none => (s, [])
      | some roomId =>
        let (buckets, ok) := rateOk s.rateBuckets sid now 200
        let s := { s with rateBuckets := buckets }
        if !ok then (s, []) else
        match jget s.rooms roomId with
        | none => (s, [])
        | some room =>
          let room2 := { room with elements := ids.foldl (fun m i => jdel m i) room.elements }
          ({ s with rooms := jset s.rooms roomId room2 }, [.elementsDeleted roomId ids])
  | .cursorMove x y =>
      match jget s.conns sid with
      | none => (s, [])
      | some roomId =>
        let (buckets, ok) := rateOk s.rateBuckets sid now 30
        let s := { s with rateBuckets := buckets }
        if !ok then (s, []) else
        match jget s.rooms roomId with
        | none => (s, [])
        | some room =>
          let room2 :=
            match jget room.users sid with
            | none => room
            | some u =>
              { room with users := jset room.users sid ({ u with cursor := some (x, y) }) }
          ({ s with rooms := jset s.rooms roomId room2 },
           [.cursorMoved roomId sid x y])
  | .clearBoard =>
      match jget s.conns sid with
      | none => (s, [])
      | some roomId =>
        match jget s.rooms roomId with
        | none => (s, [])
        | some room =>
          ({ s with rooms := jset s.rooms roomId ({ room with elements := [] }) },
           [.boardCleared roomId])
  | .penDelta _ _ =>
      -- server.js registers NO handler for the pen-delta event: the message
      -- is received by socket.io and discarded without any effect.
      (s, [])

/-- Server-side events: an inbound socket message, a socket disconnect, the
firing of one scheduled empty-room deletion timeout, and one round of the
hourly cleanup sweep. -/
inductive Ev
  | msg (sid : String) (t : Nat) (m : CMsg)
  | disconnect (sid : String) (t : Nat)
  | timerFire (roomId : String) (t : Nat)
  | sweep (t : Nat)
deriving DecidableEq, Repr

/-- The disconnect handler of server.js.  The connection closure (and with it
the captured roomId) dies with the socket, so the `conns` entry is removed. -/
def handleDisconnect (s : ServerState) (sid : String) (now : Nat) :
    ServerState × List Emitted :=
  let s := { s with rateBuckets := jdel s.rateBuckets sid }
  match jget s.conns sid with
  | none => (s, [])
  | some roomId =>
    let s := { s with conns := jdel s.conns sid }
    match jget s.rooms roomId with
    | none => (s, [])
    | some room =>
      let room2 := { room with users := jdel room.users sid }
      let s := { s with rooms := jset s.rooms roomId room2 }
      if room2.users.length = 0 then
        ({ s with timers := s.timers ++ [(roomId, now + 5 * 60 * 1000)] },
         [.userLeft roomId sid])
      else (s, [.userLeft roomId sid])

/-- The callback of the setTimeout scheduled by the disconnect handler: if
the captured room still exists and is still empty, delete it.  The event is
a no-op unless such a timeout is actually pending. -/
def handleTimer (s : ServerState) (roomId : String) (t : Nat) : ServerState :=
  if (roomId, t) ∈ s.timers then
    let s := { s with timers := s.timers.erase (roomId, t) }
    match jget s.rooms roomId with
    | none => s
    | some room =>
      if room.users.length = 0 then { s with rooms := jdel s.rooms roomId } else s
  else s

/-- One round of the hourly setInterval sweep: delete every room that is
empty now and whose createdAt timestamp lies more than 24 hours in the past
(`now - room.createdAt > 24 * 3600 * 1000`). -/
def handleSweep (s : ServerState) (now : Nat) : ServerState :=
  { s with rooms := s.rooms.filter fun r =>
      !(r.2.users.length = 0 && r.2.createdAt + 24 * 3600 * 1000 < now) }

def serverStep (s : ServerState) : Ev → ServerState × List Emitted
  | .msg sid t m => handleMsg s sid t m
  | .disconnect sid t => handleDisconnect s sid t
  | .timerFire roomId t => (handleTimer s roomId t, [])
  | .sweep t => (handleSweep s t, [])

def serverRun (s : ServerState) (es : List Ev) : ServerState :=
  es.foldl (fun s e => (serverStep s e).1) s

/-! ### Client replica and history engine (script.js)

The client state S of script.js is embedded with the fields the history
claims are about: the element replica `S.elements`, the snapshot stack
`S.history` and the cursor `S.historyIdx` (an Int, initialized to -1).
UI-only fields (selection, viewport, cursors, previews, tool state) are
outside the claims and omitted.  snapshot() deep-copies the element map via
JSON round-tripping; in the pure embedding a deep copy is the value itself.
The JSON.stringify equality test of restoreSnapshot is embedded as
structural equality: every copy in the code preserves key order, so two
stringify-equal maps are exactly the structurally equal ones. -/

structure ClientState where
  elements : List (String × Element)
  history : List (List (String × Element))
  historyIdx : Int
deriving DecidableEq, Repr

/-- Operations the client emits to the server while restoring a snapshot. -/
inductive COp
  | add (el : Element)
  | update (el : Element)
  | deleteEls (ids : List String)
  | clear
deriving DecidableEq, Repr

def MAX_HISTORY : Nat := 80

/-- function restoreSnapshot(snap) of script.js, as a function of the replica
immediately prior (`prev`) and the snapshot: returns the new replica (a deep
copy of the snapshot) and the socket emissions in order — first one
add-element or update-element per changed entry of the snapshot (iterated in
snapshot order), then one delete-elements call with a singleton id list per
entry of `prev` absent from the snapshot. -/
def upsertOp (prev : List (String × Element)) (pe : String × Element) : Option COp :=
  match jget prev pe.1 with
  | none => some (COp.add pe.2)
  | some old => if old ≠ pe.2 then some (COp.update pe.2) else none

def deleteOp (snap : List (String × Element)) (pe : String × Element) : Option COp :=
  if jhas snap pe.1 then none else some (COp.deleteEls [pe.1])

def restoreSnapshot (prev snap : List (String × Element)) :
    List (String × Element) × List COp :=
  (snap, snap.filterMap (upsertOp prev) ++ prev.filterMap (deleteOp snap))

/-- function pushHistory() of script.js: truncate the redo branch, append a
snapshot of the current replica, point the cursor at it, and drop the oldest
entry when the cap of 80 is exceeded. -/
def pushHistory (cs : ClientState) : ClientState :=
  let hist := cs.history.take (cs.historyIdx + 1).toNat ++ [cs.elements]
  if hist.length > MAX_HISTORY then
    { cs with history := hist.drop 1, historyIdx := (hist.drop 1 : List _).length - 1 }
  else
    { cs with history := hist, historyIdx := (hist.length : Int) - 1 }

/-- function undo() of script.js: a no-op at the lower boundary, otherwise
decrement the cursor and restore that snapshot.  The second component is the
list of operations emitted to the server by the restore. -/
def undo (cs : ClientState) : ClientState × List COp :=
  if cs.historyIdx ≤ 0 then (cs, []) else
  let idx := cs.historyIdx - 1
  let snap := cs.history.getD idx.toNat []
  let r := restoreSnapshot cs.elements snap
  ({ cs with elements := r.1, historyIdx := idx }, r.2)

/-- function redo() of script.js: a no-op at the upper boundary, otherwise
increment the cursor and restore that snapshot. -/
def redo (cs : ClientState) : ClientState × List COp :=
  if cs.historyIdx ≥ (cs.history.length : Int) - 1 then (cs, []) else
  let idx := cs.historyIdx + 1
  let snap := cs.history.getD idx.toNat []
  let r := restoreSnapshot cs.elements snap
  ({ cs with elements := r.1, historyIdx := idx }, r.2)

/-! ### Eraser segmenter (script.js, checkErase, pen branch)

Geometry is embedded over Int.  Math.hypot(dx, dy) < c is decided exactly as
0 < c ∧ dx^2 + dy^2 < c^2 (the distance is nonnegative and squaring is
monotone on nonnegative reals), so no square root or float is needed. -/

def distSq (a b : Pt) : Int :=
  (a.x - b.x) ^ 2 + (a.y - b.y) ^ 2

/-- Decides Math.hypot(a.x - b.x, a.y - b.y) < c exactly: the distance is
nonnegative, so it is below c iff c is positive and the squared distance is
below c squared. -/
def hypotLt (a b : Pt) (c : Int) : Bool :=
  decide (0 < c) && decide (distSq a b < c ^ 2)

/-- Decides distToSeg(p, a, b) < c of script.js exactly.  The source
computes the clamped projection parameter t = clamp(dot/lenSq, 0, 1) (t = 0
for a zero-length segment), the foot point, and compares the Euclidean
distance against c.  For t clamped to 0 the foot is a, for t clamped to 1
it is b; otherwise dist^2 = |p-a|^2 - dot^2/lenSq, and multiplying the
comparison dist^2 < c^2 by the positive denominator lenSq turns it into the
integer test below. -/
def segDistLt (p a b : Pt) (c : Int) : Bool :=
  let dx := b.x - a.x
  let dy := b.y - a.y
  let lenSq := dx * dx + dy * dy
  let dot := (p.x - a.x) * dx + (p.y - a.y) * dy
  if lenSq = 0 then hypotLt p a c
  else if dot ≤ 0 then hypotLt p a c
  else if lenSq ≤ dot then hypotLt p b c
  else decide (0 < c) && decide (distSq p a * lenSq - dot * dot < c ^ 2 * lenSq)

/-- The JS fallback `el.style.strokeWidth || 2`: an absent or zero (falsy)
stroke width becomes 2. -/
def strokeWidthOf (sw : Option Int) : Int :=
  match sw with
  | some w => if w = 0 then 2 else w
  | none => 2

/-- Outcome of the pen branch of checkErase for one pen element: either the
element is left unchanged, or the original is deleted and replaced by one
new pen element per surviving segment. -/
inductive EraseResult
  | unchanged
  | split (segments : List (List Pt))
deriving DecidableEq, Repr

/-- The segment-regrouping loop of checkErase, on survivors annotated with
their original indices.  JS computes the original index of each surviving
point object with indexOf, which compares references; stroke points are
pairwise distinct objects, so indexOf recovers exactly the original index —
embedded here by filtering the index-annotated point list.  `seg` is the
current run (in order), `last` the original index of its last point, `acc`
the finished runs; a run shorter than 2 points is dropped when closed. -/
def runsGo : List (Nat × Pt) → Nat → List Pt → List (List Pt) → List (List Pt)
  | [], _, seg, acc => if 2 ≤ seg.length then acc ++ [seg] else acc
  | iq :: rest, last, seg, acc =>
      if iq.1 = last + 1 then runsGo rest iq.1 (seg ++ [iq.2]) acc
      else runsGo rest iq.1 [iq.2] (if 2 ≤ seg.length then acc ++ [seg] else acc)

/-- Split the surviving (index, point) list into maximal runs of
originally-contiguous indices, dropping runs shorter than 2 points. -/
def buildRuns : List (Nat × Pt) → List (List Pt)
  | [] => []
  | iq :: rest => runsGo rest iq.1 [iq.2] []

/-- The pen branch of function checkErase(p) of script.js for a single pen
element with point list `pts` and raw style.strokeWidth `sw`, at eraser
contact point `p` with radius = S.eraserSize / 2.  Follows the source: a
coarse hit test against radius + strokeWidth over points and segments, then
the partition of the points by distance from p against the radius, then the
regrouping into runs. -/
def survivorsOf (pts : List Pt) (p : Pt) (radius : Int) : List (Nat × Pt) :=
  pts.enum.filter fun iq => !hypotLt iq.2 p radius

def penErase (pts : List Pt) (sw : Option Int) (p : Pt) (radius : Int) : EraseResult :=
  let hitMargin := radius + strokeWidthOf sw
  let hasHit := pts.any (fun q => hypotLt q p hitMargin) ||
    (pts.zip pts.tail).any (fun ab => segDistLt p ab.1 ab.2 hitMargin)
  if !hasHit then .unchanged else
  let surviving := survivorsOf pts p radius
  if surviving.length = pts.length then .unchanged else
  .split (buildRuns surviving)

/-- A new pen element created by checkErase for one surviving run: fresh id,
type pen, the run points, a copy of the original style.  The opaque style
copy is carried as the props list of the Element model. -/
structure PenPiece where
  id : String
  points : List Pt
  style : List (String × String)
deriving DecidableEq, Repr

/-- The queue effect of the pen branch of checkErase on one element: when
the stroke is split, the original id is queued for deletion and one new
element per run is queued for addition, with fresh ids drawn from the uid()
supply `fresh` and the style copied. -/
def penEraseQueues (elId : String) (style : List (String × String))
    (pts : List Pt) (sw : Option Int) (p : Pt) (radius : Int)
    (fresh : Nat → String) : List String × List PenPiece :=
  match penErase pts sw p radius with
  | .unchanged => ([], [])
  | .split segs => ([elId], segs.enum.map fun js => ⟨fresh js.1, js.2, style⟩)

/-! ### Client pen-delta reconstruction (script.js, socket.on pen-delta) -/

/-- A remote preview buffer entry: the in-progress stroke of one sender. -/
structure PreviewEl where
  id : String
  points : List Pt
  style : List (String × String)
deriving DecidableEq, Repr

/-- The client handler socket.on(pen-delta): for relayed data
(userId, id, pts, style), look up the preview buffer of the sender; when it
is missing or buffers a different stroke id, start a fresh empty pen preview
(style defaulting to the empty object); then append the delta points.
Guards: falsy userId or id (empty strings) drop the message. -/
def clientPenDelta (previews : List (String × PreviewEl))
    (userId id : String) (pts : List Pt) (style : Option (List (String × String))) :
    List (String × PreviewEl) :=
  if userId = "" || id = "" then previews else
  let pv : PreviewEl :=
    match jget previews userId with
    | some pv => if pv.id = id then pv else ⟨id, [], style.getD []⟩
    | none => ⟨id, [], style.getD []⟩
  jset previews userId { pv with points := pv.points ++ pts }

/-! ### Specification-side regrouping used to reason about buildRuns

`chunkSeed` groups an index-annotated point list into maximal runs of
consecutive original indices, head-recursively, starting from a partial run
`c` whose last original index is `last`; `survivorGroups` starts it off.
`seedRuns` is the same computation fused with the drop-short-runs filter and
the projection to points, in the shape of the runsGo loop. -/

def chunkSeed (c : List (Nat × Pt)) (last : Nat) :
    List (Nat × Pt) → List (List (Nat × Pt))
  | [] => [c]
  | iq :: rest =>
      if iq.1 = last + 1 then chunkSeed (c ++ [iq]) iq.1 rest
      else c :: chunkSeed [iq] iq.1 rest

def survivorGroups : List (Nat × Pt) → List (List (Nat × Pt))
  | [] => []
  | iq :: rest => chunkSeed [iq] iq.1 rest

def seedRuns (seg : List Pt) (last : Nat) : List (Nat × Pt) → List (List Pt)
  | [] => if 2 ≤ seg.length then [seg] else []
  | iq :: rest =>
      if iq.1 = last + 1 then seedRuns (seg ++ [iq.2]) iq.1 rest
      else (if 2 ≤ seg.length then [seg] else []) ++ seedRuns [iq.2] iq.1 rest

/-! ### Derived views and concrete scenario states used by the theorems -/

/-- The elements map of a room, viewed from the server state. -/
def roomElements (s : ServerState) (rid : String) : Option (List (String × Element)) :=
  (jget s.rooms rid).map Room.elements

/-- Room Store invariant of claim C9: every stored element has an id of at
most 64 characters and one of the seven known types. -/
def ElemOK (el : Element) : Prop :=
  el.id.length ≤ 64 ∧ el.type ∈ VALID_TYPES

def StoreInv (s : ServerState) : Prop :=
  ∀ q ∈ s.rooms, ∀ p ∈ q.2.elements, ElemOK p.2

/-- Concrete elements and states for witnesses and counterexamples. -/
def elA : Element := { id := "A", type := "rectangle" }

def elB : Element := { id := "B", type := "ellipse" }

/-- A server state with one live connection s1 joined to room r, as produced
by a join, with an element A already stored. -/
def wRoom : Room := { elements := [("A", elA)], users := [("s1", ⟨"alice", "#e03131", none⟩)], createdAt := 0 }

def wState : ServerState :=
  { rooms := [("r", wRoom)], rateBuckets := [], conns := [("s1", "r")], timers := [] }

/-- A server state where connection s1 still believes it is in room r but
the room has been deleted (stale connection state). -/
def staleState : ServerState :=
  { rooms := [], rateBuckets := [], conns := [("s1", "r")], timers := [] }

/-- A room whose last user already left, with a pending deletion timer. -/
def emptyRoom : Room := { elements := [("A", elA)], users := [], createdAt := 0 }

def timerStateEmpty : ServerState :=
  { rooms := [("r", emptyRoom)], rateBuckets := [], conns := [], timers := [("r", 300000)] }

/-- A room that regained a user before its deletion timer fired. -/
def timerStateBusy : ServerState :=
  { rooms := [("r", wRoom)], rateBuckets := [], conns := [("s1", "r")],
    timers := [("r", 300000)] }

/-- Client state right after joining an empty board: the room-state handler
seeds the history with one snapshot of the empty replica. -/
def seededCS : ClientState := { elements := [], history := [[]], historyIdx := 0 }

/-- C6 counterexample data: starting from the seeded state, execute the
sequence of the claim literally: push(); then mutate (add element A). -/
def csAfterPushThenMutate : ClientState :=
  { pushHistory seededCS with elements := [("A", elA)] }

/-- C4 counterexample trace: one join, then 200 drawing-preview messages and
a single valid add-element, all within the same one-second window. -/
def previewFlood : List Ev :=
  Ev.msg "s1" 0 (.joinRoom "r" none) ::
    (List.replicate 200 (Ev.msg "s1" 0 (.drawingPreview elA)) ++
      [Ev.msg "s1" 0 (.addElement elA)])

/-- C4 amended-claim trace: one join, then 201 valid add-element operations
with distinct ids, all within the same one-second window. -/
def adds201 : List Ev :=
  Ev.msg "s1" 0 (.joinRoom "r" none) ::
    ((List.range 201).map fun i =>
      Ev.msg "s1" 0 (.addElement { id := Nat.repr i, type := "pen" }))

/-- C4 cursor-threshold trace: one join, then 30 cursor moves to positions
(1,1) .. (30,30) followed by a 31st move to (99,99), all within the same
one-second window. -/
def cursor31 : List Ev :=
  Ev.msg "s1" 0 (.joinRoom "r" none) ::
    ((List.range 30).map fun i =>
      Ev.msg "s1" 0 (.cursorMove ((i : Int) + 1) ((i : Int) + 1))) ++
    [Ev.msg "s1" 0 (.cursorMove 99 99)]

/-- C7 counterexample trace: the room is created at time 0, its only user
disconnects just after the 24-hour mark, and the hourly sweep runs 1ms after
the disconnect — the room has been empty for 1ms, not 24 hours. -/
def sweepTrace : List Ev :=
  [Ev.msg "s1" 0 (.joinRoom "r" none),
   Ev.disconnect "s1" 86400001,
   Ev.sweep 86400002]

/-! ### Lemmas about the JS Map embedding -/

theorem jget_jset_same {α : Type} (m : List (String × α)) (k : String) (v : α) :
    jget (jset m k v) k = some v := by
  induction m with
  | nil => simp [jget, jset]
  | cons p m ih =>
      by_cases h : p.1 = k
      · simp [jget, jset, h]
      · simp [jget, jset, h, ih]

theorem jget_jset_ne {α : Type} (m : List (String × α)) (k k2 : String) (v : α)
    (h : k ≠ k2) : jget (jset m k v) k2 = jget m k2 := by
  induction m with
  | nil => simp [jget, jset, h]
  | cons p m ih =>
      by_cases hp : p.1 = k
      · have hp2 : p.1 ≠ k2 := by rw [hp]; exact h
        simp only [jset, if_pos hp, jget, if_neg h, if_neg hp2]
      · simp only [jset, if_neg hp, jget]
        rw [ih]

theorem jget_jdel_same {α : Type} (m : List (String × α)) (k : String) :
    jget (jdel m k) k = none := by
  induction m with
  | nil => simp [jget, jdel]
  | cons p m ih =>
      by_cases h : p.1 = k
      · simp [jdel, h, ih]
      · simp [jget, jdel, h, ih]

theorem jget_jdel_ne {α : Type} (m : List (String × α)) (k k2 : String)
    (h : k ≠ k2) : jget (jdel m k) k2 = jget m k2 := by
  induction m with
  | nil => simp [jdel]
  | cons p m ih =>
      by_cases hp : p.1 = k
      · have hp2 : p.1 ≠ k2 := by rw [hp]; exact h
        simp only [jdel, if_pos hp, jget, if_neg hp2]
        exact ih
      · simp only [jdel, if_neg hp, jget]
        rw [ih]

theorem mem_jset {α : Type} {m : List (String × α)} {k : String} {v : α}
    {p : String × α} (h : p ∈ jset m k v) : p = (k, v) ∨ p ∈ m := by
  induction m with
  | nil => simpa [jset] using h
  | cons q m ih =>
      by_cases hq : q.1 = k
      · simp only [jset, hq, if_pos rfl] at h
        rcases List.mem_cons.mp h with h | h
        · exact Or.inl h
        · exact Or.inr (List.mem_cons_of_mem _ h)
      · simp only [jset, hq, if_neg hq] at h
        rcases List.mem_cons.mp h with h | h
        · exact Or.inr (h ▸ List.mem_cons_self _ _)
        · rcases ih h with h | h
          · exact Or.inl h
          · exact Or.inr (List.mem_cons_of_mem _ h)

theorem mem_jdel {α : Type} {m : List (String × α)} {k : String}
    {p : String × α} (h : p ∈ jdel m k) : p ∈ m := by
  induction m with
  | nil => simp [jdel] at h
  | cons q m ih =>
      by_cases hq : q.1 = k
      · simp only [jdel, if_pos hq] at h
        exact List.mem_cons_of_mem _ (ih h)
      · simp only [jdel, if_neg hq] at h
        rcases List.mem_cons.mp h with h | h
        · exact h ▸ List.mem_cons_self _ _
        · exact List.mem_cons_of_mem _ (ih h)

theorem jget_mem {α : Type} {m : List (String × α)} {k : String} {v : α}
    (h : jget m k = some v) : (k, v) ∈ m := by
  induction m with
  | nil => simp [jget] at h
  | cons q m ih =>
      obtain ⟨q1, q2⟩ := q
      by_cases hq : q1 = k
      · subst hq
        have hj : jget ((q1, q2) :: m) q1 = some q2 := by simp [jget]
        rw [hj] at h
        injection h with h2
        subst h2
        exact List.mem_cons_self _ _
      · have hj : jget ((q1, q2) :: m) k = jget m k := by simp [jget, hq]
        rw [hj] at h
        exact List.mem_cons_of_mem _ (ih h)

/-- Unique keys: the well-formedness every JS Map enjoys by construction. -/
def KeysNodup {α : Type} (m : List (String × α)) : Prop :=
  (m.map Prod.fst).Nodup

theorem mem_iff_jget {α : Type} {m : List (String × α)} (hm : KeysNodup m)
    (k : String) (v : α) : (k, v) ∈ m ↔ jget m k = some v := by
  induction m with
  | nil => simp [jget]
  | cons q m ih =>
      obtain ⟨q1, q2⟩ := q
      have hm2 : KeysNodup m := (List.nodup_cons.mp hm).2
      have hq1 : q1 ∉ m.map Prod.fst := (List.nodup_cons.mp hm).1
      by_cases hq : q1 = k
      · subst hq
        have hj : jget ((q1, q2) :: m) q1 = some q2 := by simp [jget]
        rw [hj]
        constructor
        · intro h
          rcases List.mem_cons.mp h with h | h
          · rw [(Prod.mk.injEq _ _ _ _ ▸ h : q1 = q1 ∧ v = q2).2]
          · exact absurd (List.mem_map_of_mem Prod.fst h) hq1
        · intro h
          injection h with h2
          rw [← h2]
          exact List.mem_cons_self _ _
      · have hj : jget ((q1, q2) :: m) k = jget m k := by simp [jget, hq]
        rw [hj, ← ih hm2]
        constructor
        · intro h
          rcases List.mem_cons.mp h with h | h
          · exact absurd ((Prod.mk.injEq _ _ _ _ ▸ h : k = q1 ∧ v = q2).1.symm) hq
          · exact h
        · intro h
          exact List.mem_cons_of_mem _ h

theorem jget_foldl_jdel {α : Type} (ids : List String)
    (m : List (String × α)) (k : String) :
    jget (ids.foldl (fun m i => jdel m i) m) k =
      if k ∈ ids then none else jget m k := by
  induction ids generalizing m with
  | nil => simp
  | cons i ids ih =>
      simp only [List.foldl_cons]
      rw [ih]
      by_cases hk : k = i
      · subst hk
        by_cases hmem : k ∈ ids <;> simp [hmem, jget_jdel_same]
      · by_cases hmem : k ∈ ids
        · simp [hmem]
        · simp [hmem, hk, jget_jdel_ne m i k fun hh => hk hh.symm]

theorem jset_jset {α : Type} (m : List (String × α)) (k : String) (v w : α) :
    jset (jset m k v) k w = jset m k w := by
  induction m with
  | nil => simp [jset]
  | cons p m ih =>
      by_cases hp : p.1 = k
      · simp [jset, hp]
      · simp [jset, hp, ih]

/-! ### Rate limiter lemmas -/

/-- Normal form of one rateOk call: some count c is incremented, the stored
bucket keeps a reset time not in the past, and the verdict compares the
incremented count with the limit. -/
theorem rateOk_spec (B : List (String × Bucket)) (sid : String) (t lim : Nat) :
    ∃ c r, t ≤ r ∧
      rateOk B sid t lim = (jset B sid ⟨c + 1, r⟩, decide (c + 1 ≤ lim)) := by
  unfold rateOk
  cases hB : jget B sid with
  | none => exact ⟨0, t + 1000, by omega, rfl⟩
  | some b =>
      by_cases ht : t > b.reset
      · simp only [if_pos ht]
        exact ⟨0, t + 1000, by omega, rfl⟩
      · simp only [if_neg ht]
        exact ⟨b.count, b.reset, by omega, rfl⟩

/-- A second rateOk call at the same timestamp sees the bucket the first call
stored and increments it again. -/
theorem rateOk_again (B : List (String × Bucket)) (sid : String) (t lim c r : Nat)
    (h : t ≤ r) :
    rateOk (jset B sid ⟨c, r⟩) sid t lim =
      (jset B sid ⟨c + 1, r⟩, decide (c + 1 ≤ lim)) := by
  unfold rateOk
  rw [jget_jset_same]
  have ht : ¬ (t > r) := by omega
  simp only [if_neg ht, jset_jset]

/-! ### C5: idempotence and last-writer-wins of add-element / update-element -/

theorem add_twice_state (s : ServerState) (sid : String) (t : Nat) (el : Element)
    (rid : String) :
    roomElements (handleMsg (handleMsg s sid t (.addElement el)).1 sid t (.addElement el)).1 rid =
      roomElements (handleMsg s sid t (.addElement el)).1 rid := by
  obtain ⟨c, r, htr, hrate⟩ := rateOk_spec s.rateBuckets sid t 200
  cases hc : jget s.conns sid with
  | none => simp [handleMsg, hc]
  | some roomId =>
      simp only [handleMsg, hc, hrate]
      by_cases hok : c + 1 ≤ 200
      · simp only [decide_eq_true hok, Bool.not_true, Bool.false_eq_true, if_false]
        by_cases hval : validElement el = true
        · simp only [hval, Bool.not_true, Bool.false_eq_true, if_false]
          cases hroom : jget s.rooms roomId with
          | none =>
              simp only [hroom]
              simp only [handleMsg, hc, rateOk_again _ _ _ _ _ _ htr]
              by_cases hok2 : c + 1 + 1 ≤ 200 <;>
                simp [hok2, hval, hroom, roomElements]
          | some room =>
              simp only [hroom]
              simp only [handleMsg, hc, rateOk_again _ _ _ _ _ _ htr]
              by_cases hok2 : c + 1 + 1 ≤ 200
              · simp only [decide_eq_true hok2, Bool.not_true, Bool.false_eq_true,
                  if_false, hval, jget_jset_same]
                simp [roomElements, jset_jset]
              · simp [hok2, roomElements]
        · simp only [Bool.not_eq_true] at hval
          simp only [hval, Bool.not_false, if_true]
          simp only [handleMsg, hc, rateOk_again _ _ _ _ _ _ htr]
          by_cases hok2 : c + 1 + 1 ≤ 200 <;> simp [hok2, hval, roomElements]
      · simp only [decide_eq_false hok, Bool.not_false, if_true]
        simp only [handleMsg, hc, rateOk_again _ _ _ _ _ _ htr]
        have hok2 : ¬ (c + 1 + 1 ≤ 200) := by omega
        simp [hok2, roomElements]

theorem update_twice_state (s : ServerState) (sid : String) (t : Nat) (el : Element)
    (rid : String) :
    roomElements (handleMsg (handleMsg s sid t (.updateElement el)).1 sid t (.updateElement el)).1 rid =
      roomElements (handleMsg s sid t (.updateElement el)).1 rid := by
  obtain ⟨c, r, htr, hrate⟩ := rateOk_spec s.rateBuckets sid t 200
  cases hc : jget s.conns sid with
  | none => simp [handleMsg, hc]
  | some roomId =>
      simp only [handleMsg, hc, hrate]
      by_cases hok : c + 1 ≤ 200
      · simp only [decide_eq_true hok, Bool.not_true, Bool.false_eq_true, if_false]
        by_cases hval : validElement el = true
        · simp only [hval, Bool.not_true, Bool.false_eq_true, if_false]
          cases hroom : jget s.rooms roomId with
          | none =>
              simp only [hroom]
              simp only [handleMsg, hc, rateOk_again _ _ _ _ _ _ htr]
              by_cases hok2 : c + 1 + 1 ≤ 200 <;>
                simp [hok2, hval, hroom, roomElements]
          | some room =>
              simp only [hroom]
              simp only [handleMsg, hc, rateOk_again _ _ _ _ _ _ htr]
              by_cases hok2 : c + 1 + 1 ≤ 200
              · simp only [decide_eq_true hok2, Bool.not_true, Bool.false_eq_true,
                  if_false, hval, jget_jset_same]
                simp [roomElements, jset_jset]
              · simp [hok2, roomElements]
        · simp only [Bool.not_eq_true] at hval
          simp only [hval, Bool.not_false, if_true]
          simp only [handleMsg, hc, rateOk_again _ _ _ _ _ _ htr]
          by_cases hok2 : c + 1 + 1 ≤ 200 <;> simp [hok2, hval, roomElements]
      · simp only [decide_eq_false hok, Bool.not_false, if_true]
        simp only [handleMsg, hc, rateOk_again _ _ _ _ _ _ htr]
        have hok2 : ¬ (c + 1 + 1 ≤ 200) := by omega
        simp [hok2, roomElements]

theorem add_lww (s : ServerState) (sid : String) (t : Nat) (el : Element)
    (roomId : String) (room : Room)
    (hc : jget s.conns sid = some roomId)
    (hroom : jget s.rooms roomId = some room)
    (hr : (rateOk s.rateBuckets sid t 200).2 = true)
    (hval : validElement el = true) :
    ∃ es, roomElements (handleMsg s sid t (.addElement el)).1 roomId = some es ∧
      jget es el.id = some el ∧
      ∀ k, k ≠ el.id → jget es k = jget room.elements k := by
  obtain ⟨c, r, htr, hrate⟩ := rateOk_spec s.rateBuckets sid t 200
  rw [hrate] at hr
  simp only [handleMsg, hc, hrate, hr, Bool.not_true, Bool.false_eq_true, if_false,
    hval, hroom]
  refine ⟨jset room.elements el.id el, ?_, jget_jset_same _ _ _, ?_⟩
  · simp [roomElements, jget_jset_same]
  · intro k hk
    exact jget_jset_ne _ _ _ _ fun hh => hk hh.symm

theorem update_lww (s : ServerState) (sid : String) (t : Nat) (el : Element)
    (roomId : String) (room : Room)
    (hc : jget s.conns sid = some roomId)
    (hroom : jget s.rooms roomId = some room)
    (hr : (rateOk s.rateBuckets sid t 200).2 = true)
    (hval : validElement el = true) :
    ∃ es, roomElements (handleMsg s sid t (.updateElement el)).1 roomId = some es ∧
      jget es el.id = some el ∧
      ∀ k, k ≠ el.id → jget es k = jget room.elements k := by
  obtain ⟨c, r, htr, hrate⟩ := rateOk_spec s.rateBuckets sid t 200
  rw [hrate] at hr
  simp only [handleMsg, hc, hrate, hr, Bool.not_true, Bool.false_eq_true, if_false,
    hval, hroom]
  refine ⟨jset room.elements el.id el, ?_, jget_jset_same _ _ _, ?_⟩
  · simp [roomElements, jget_jset_same]
  · intro k hk
    exact jget_jset_ne _ _ _ _ fun hh => hk hh.symm

/-- C5: for every room and every element payload, applying add-element or
update-element twice with an identical payload (within the same timestamp,
i.e. immediately re-applied) leaves every room with exactly the element
state of a single application; and an add or update to an id stores exactly
the sent payload, with no merge against the previous value, leaving every
other id untouched (last-writer-wins). -/
theorem C5_idempotent_lww :
    (∀ s sid t el rid,
      roomElements (handleMsg (handleMsg s sid t (.addElement el)).1 sid t (.addElement el)).1 rid =
        roomElements (handleMsg s sid t (.addElement el)).1 rid) ∧
    (∀ s sid t el rid,
      roomElements (handleMsg (handleMsg s sid t (.updateElement el)).1 sid t (.updateElement el)).1 rid =
        roomElements (handleMsg s sid t (.updateElement el)).1 rid) ∧
    (∀ s sid t el roomId room,
      jget s.conns sid = some roomId → jget s.rooms roomId = some room →
      (rateOk s.rateBuckets sid t 200).2 = true → validElement el = true →
      (∃ es, roomElements (handleMsg s sid t (.addElement el)).1 roomId = some es ∧
        jget es el.id = some el ∧
        ∀ k, k ≠ el.id → jget es k = jget room.elements k) ∧
      (∃ es, roomElements (handleMsg s sid t (.updateElement el)).1 roomId = some es ∧
        jget es el.id = some el ∧
        ∀ k, k ≠ el.id → jget es k = jget room.elements k)) := by
  refine ⟨add_twice_state, update_twice_state, ?_⟩
  intro s sid t el roomId room hc hroom hr hval
  exact ⟨add_lww s sid t el roomId room hc hroom hr hval,
    update_lww s sid t el roomId room hc hroom hr hval⟩

/-- Witness for C5: the hypotheses of the last-writer-wins part are
satisfiable at the concrete state wState (connection s1 joined to room r
holding element A) with payload elB keyed to id A via an overwrite of A. -/
theorem C5_idempotent_lww_witness :
    jget wState.conns "s1" = some "r" ∧ jget wState.rooms "r" = some wRoom ∧
    (rateOk wState.rateBuckets "s1" 0 200).2 = true ∧
    validElement elA = true ∧
    ((∃ es, roomElements (handleMsg wState "s1" 0 (.addElement elA)).1 "r" = some es ∧
        jget es elA.id = some elA ∧
        ∀ k, k ≠ elA.id → jget es k = jget wRoom.elements k) ∧
      (∃ es, roomElements (handleMsg wState "s1" 0 (.updateElement elA)).1 "r" = some es ∧
        jget es elA.id = some elA ∧
        ∀ k, k ≠ elA.id → jget es k = jget wRoom.elements k)) :=
  ⟨by decide, by decide, by decide, by decide,
    C5_idempotent_lww.2.2 wState "s1" 0 elA "r" wRoom (by decide) (by decide)
      (by decide) (by decide)⟩

/-! ### C8: stale references absorbed as no-ops -/

theorem delete_elements_spec (s : ServerState) (sid : String) (t : Nat)
    (ids : List String) (roomId : String) (room : Room)
    (hc : jget s.conns sid = some roomId)
    (hroom : jget s.rooms roomId = some room)
    (hr : (rateOk s.rateBuckets sid t 200).2 = true) :
    ∃ es, roomElements (handleMsg s sid t (.deleteElements ids)).1 roomId = some es ∧
      ∀ k, jget es k = if k ∈ ids then none else jget room.elements k := by
  obtain ⟨c, r, htr, hrate⟩ := rateOk_spec s.rateBuckets sid t 200
  rw [hrate] at hr
  simp only [handleMsg, hc, hrate, hr, Bool.not_true, Bool.false_eq_true, if_false, hroom]
  refine ⟨ids.foldl (fun m i => jdel m i) room.elements, ?_, ?_⟩
  · simp [roomElements, jget_jset_same]
  · intro k
    exact jget_foldl_jdel ids room.elements k

theorem stale_room_add (s : ServerState) (sid : String) (t : Nat) (el : Element)
    (roomId : String)
    (hc : jget s.conns sid = some roomId)
    (hroom : jget s.rooms roomId = none) :
    (handleMsg s sid t (.addElement el)).1.rooms = s.rooms ∧
    (handleMsg s sid t (.addElement el)).1.conns = s.conns ∧
    (handleMsg s sid t (.addElement el)).1.timers = s.timers ∧
    (handleMsg s sid t (.addElement el)).2 = [] := by
  obtain ⟨c, r, htr, hrate⟩ := rateOk_spec s.rateBuckets sid t 200
  simp only [handleMsg, hc, hrate]
  by_cases hok : c + 1 ≤ 200 <;>
    by_cases hval : validElement el = true <;>
      simp [hok, hval, hroom]

theorem stale_room_update (s : ServerState) (sid : String) (t : Nat) (el : Element)
    (roomId : String)
    (hc : jget s.conns sid = some roomId)
    (hroom : jget s.rooms roomId = none) :
    (handleMsg s sid t (.updateElement el)).1.rooms = s.rooms ∧
    (handleMsg s sid t (.updateElement el)).1.conns = s.conns ∧
    (handleMsg s sid t (.updateElement el)).1.timers = s.timers ∧
    (handleMsg s sid t (.updateElement el)).2 = [] := by
  obtain ⟨c, r, htr, hrate⟩ := rateOk_spec s.rateBuckets sid t 200
  simp only [handleMsg, hc, hrate]
  by_cases hok : c + 1 ≤ 200 <;>
    by_cases hval : validElement el = true <;>
      simp [hok, hval, hroom]

theorem stale_room_delete (s : ServerState) (sid : String) (t : Nat) (ids : List String)
    (roomId : String)
    (hc : jget s.conns sid = some roomId)
    (hroom : jget s.rooms roomId = none) :
    (handleMsg s sid t (.deleteElements ids)).1.rooms = s.rooms ∧
    (handleMsg s sid t (.deleteElements ids)).1.conns = s.conns ∧
    (handleMsg s sid t (.deleteElements ids)).1.timers = s.timers ∧
    (handleMsg s sid t (.deleteElements ids)).2 = [] := by
  obtain ⟨c, r, htr, hrate⟩ := rateOk_spec s.rateBuckets sid t 200
  simp only [handleMsg, hc, hrate]
  by_cases hok : c + 1 ≤ 200 <;> simp [hok, hroom]

theorem stale_room_clear (s : ServerState) (sid : String) (t : Nat)
    (roomId : String)
    (hc : jget s.conns sid = some roomId)
    (hroom : jget s.rooms roomId = none) :
    (handleMsg s sid t .clearBoard).1 = s ∧ (handleMsg s sid t .clearBoard).2 = [] := by
  simp [handleMsg, hc, hroom]

/-- C8 counterexample: a valid add-element against a vanished room does NOT
leave all server state unchanged — the rate-limit bucket of the sender is
still created/incremented before the room lookup fails.  The room table
itself is untouched. -/
theorem C8_stale_state_changes_cex :
    (handleMsg staleState "s1" 0 (.addElement elA)).1 ≠ staleState ∧
    (handleMsg staleState "s1" 0 (.addElement elA)).1.rooms = staleState.rooms := by
  decide

/-- C8 amended: delete-elements removes each listed id that is present and
silently ignores absent ids, leaving every other element untouched; and any
durable operation (add, update, delete, clear) referencing a room that no
longer exists is silently dropped — no emission, and no change to the room
table, the connection table or the timers; only the rate bucket of the
sending connection can change. -/
theorem C8_stale_refs_noop :
    (∀ s sid t ids roomId room,
      jget s.conns sid = some roomId → jget s.rooms roomId = some room →
      (rateOk s.rateBuckets sid t 200).2 = true →
      ∃ es, roomElements (handleMsg s sid t (.deleteElements ids)).1 roomId = some es ∧
        ∀ k, jget es k = if k ∈ ids then none else jget room.elements k) ∧
    (∀ s sid t roomId, jget s.conns sid = some roomId →
      jget s.rooms roomId = none →
      (∀ el, (handleMsg s sid t (.addElement el)).1.rooms = s.rooms ∧
        (handleMsg s sid t (.addElement el)).1.conns = s.conns ∧
        (handleMsg s sid t (.addElement el)).1.timers = s.timers ∧
        (handleMsg s sid t (.addElement el)).2 = []) ∧
      (∀ el, (handleMsg s sid t (.updateElement el)).1.rooms = s.rooms ∧
        (handleMsg s sid t (.updateElement el)).1.conns = s.conns ∧
        (handleMsg s sid t (.updateElement el)).1.timers = s.timers ∧
        (handleMsg s sid t (.updateElement el)).2 = []) ∧
      (∀ ids, (handleMsg s sid t (.deleteElements ids)).1.rooms = s.rooms ∧
        (handleMsg s sid t (.deleteElements ids)).1.conns = s.conns ∧
        (handleMsg s sid t (.deleteElements ids)).1.timers = s.timers ∧
        (handleMsg s sid t (.deleteElements ids)).2 = []) ∧
      ((handleMsg s sid t .clearBoard).1 = s ∧ (handleMsg s sid t .clearBoard).2 = [])) := by
  constructor
  · intro s sid t ids roomId room hc hroom hr
    exact delete_elements_spec s sid t ids roomId room hc hroom hr
  · intro s sid t roomId hc hroom
    exact ⟨fun el => stale_room_add s sid t el roomId hc hroom,
      fun el => stale_room_update s sid t el roomId hc hroom,
      fun ids => stale_room_delete s sid t ids roomId hc hroom,
      stale_room_clear s sid t roomId hc hroom⟩

/-- Witness for C8: the delete part applied at wState deleting the present
id A and an absent id Z, and the stale-room part applied at staleState. -/
theorem C8_stale_refs_noop_witness :
    (∃ es, roomElements (handleMsg wState "s1" 0 (.deleteElements ["A", "Z"])).1 "r" = some es ∧
      ∀ k, jget es k = if k ∈ ["A", "Z"] then none else jget wRoom.elements k) ∧
    (handleMsg staleState "s1" 0 (.addElement elB)).1.rooms = staleState.rooms :=
  ⟨C8_stale_refs_noop.1 wState "s1" 0 ["A", "Z"] "r" wRoom (by decide) (by decide)
    (by decide),
   ((C8_stale_refs_noop.2 staleState "s1" 0 "r" (by decide) (by decide)).1 elB).1⟩

/-! ### C10: the text-preview handler never creates an element -/

/-- C10: for the text-preview handler, (1) when the preview id is not
present in the room, the whole room table is left unchanged (in particular
no element is created); (2) when it is present (and the message passes the
rate gate), the room keeps its users and creation time, every other room is
untouched, every other element of the room is untouched, and the stored
element is replaced by exactly itself with only the text field set to the
preview text. -/
theorem C10_text_preview_frame :
    (∀ s sid t id txt roomId room,
      jget s.conns sid = some roomId → jget s.rooms roomId = some room →
      jget room.elements id = none →
      (handleMsg s sid t (.textPreview id txt)).1.rooms = s.rooms) ∧
    (∀ s sid t id txt roomId room stored,
      jget s.conns sid = some roomId → jget s.rooms roomId = some room →
      jget room.elements id = some stored →
      (rateOk s.rateBuckets sid t 400).2 = true →
      ∃ room2, jget (handleMsg s sid t (.textPreview id txt)).1.rooms roomId = some room2 ∧
        jget room2.elements id = some { stored with text := txt } ∧
        (∀ k, k ≠ id → jget room2.elements k = jget room.elements k) ∧
        room2.users = room.users ∧ room2.createdAt = room.createdAt ∧
        (∀ rid, rid ≠ roomId →
          jget (handleMsg s sid t (.textPreview id txt)).1.rooms rid = jget s.rooms rid)) := by
  constructor
  · intro s sid t id txt roomId room hc hroom hid
    obtain ⟨c, r, htr, hrate⟩ := rateOk_spec s.rateBuckets sid t 400
    simp only [handleMsg, hc, hrate]
    by_cases hok : c + 1 ≤ 400 <;> simp [hok, hroom, hid]
  · intro s sid t id txt roomId room stored hc hroom hid hr
    obtain ⟨c, r, htr, hrate⟩ := rateOk_spec s.rateBuckets sid t 400
    rw [hrate] at hr
    simp only [handleMsg, hc, hrate, hr, Bool.not_true, Bool.false_eq_true, if_false,
      hroom, hid]
    refine ⟨_, jget_jset_same _ _ _, jget_jset_same _ _ _, ?_, rfl, rfl, ?_⟩
    · intro k hk
      exact jget_jset_ne _ _ _ _ fun hh => hk hh.symm
    · intro rid hrid
      exact jget_jset_ne _ _ _ _ fun hh => hrid hh.symm

/-- Witness for C10: at wState the absent id Z leaves the room table
unchanged, and a preview for the present id A sets exactly its text. -/
theorem C10_text_preview_frame_witness :
    ((handleMsg wState "s1" 0 (.textPreview "Z" (some "hi"))).1.rooms = wState.rooms) ∧
    (∃ room2, jget (handleMsg wState "s1" 0 (.textPreview "A" (some "hi"))).1.rooms "r" = some room2 ∧
      jget room2.elements "A" = some { elA with text := some "hi" } ∧
      (∀ k, k ≠ "A" → jget room2.elements k = jget wRoom.elements k) ∧
      room2.users = wRoom.users ∧ room2.createdAt = wRoom.createdAt ∧
      (∀ rid, rid ≠ "r" →
        jget (handleMsg wState "s1" 0 (.textPreview "A" (some "hi"))).1.rooms rid = jget wState.rooms rid)) :=
  ⟨C10_text_preview_frame.1 wState "s1" 0 "Z" (some "hi") "r" wRoom (by decide)
      (by decide) (by decide),
   C10_text_preview_frame.2 wState "s1" 0 "A" (some "hi") "r" wRoom elA (by decide)
      (by decide) (by decide) (by decide)⟩

/-! ### C9: the Room Store invariant -/

theorem validElement_ElemOK {el : Element} (h : validElement el = true) : ElemOK el := by
  unfold validElement at h
  rw [Bool.and_eq_true] at h
  refine ⟨of_decide_eq_true h.1, ?_⟩
  have h2 := h.2
  simpa using h2

theorem mem_foldl_jdel {α : Type} {ids : List String} {m : List (String × α)}
    {p : String × α} (h : p ∈ ids.foldl (fun m i => jdel m i) m) : p ∈ m := by
  induction ids generalizing m with
  | nil => simpa using h
  | cons i ids ih =>
      simp only [List.foldl_cons] at h
      exact mem_jdel (ih h)

theorem roomsInv_jset {rooms : List (String × Room)} {rid : String} {room2 : Room}
    (hs : ∀ q ∈ rooms, ∀ p ∈ q.2.elements, ElemOK p.2)
    (h2 : ∀ p ∈ room2.elements, ElemOK p.2) :
    ∀ q ∈ jset rooms rid room2, ∀ p ∈ q.2.elements, ElemOK p.2 := by
  intro q hq
  rcases mem_jset hq with h | h
  · subst h; exact h2
  · exact hs q h

theorem storeInv_step (s : ServerState) (e : Ev) (hs : StoreInv s) :
    StoreInv (serverStep s e).1 := by
  cases e with
  | msg sid t m =>
      cases m with
      | joinRoom roomId name =>
          by_cases hlen : roomId.length > 50
          · simpa [serverStep, handleMsg, hlen] using hs
          · cases hg : jget s.rooms roomId with
            | some room =>
                simp only [serverStep, handleMsg, hlen, if_false, getOrCreateRoom, hg]
                intro q hq
                refine roomsInv_jset hs ?_ q hq
                intro p hp
                exact hs (roomId, room) (jget_mem hg) p hp
            | none =>
                simp only [serverStep, handleMsg, hlen, if_false, getOrCreateRoom, hg]
                intro q hq
                have hbase : ∀ q2 ∈ jset s.rooms roomId (⟨[], [], t⟩ : Room),
                    ∀ p ∈ q2.2.elements, ElemOK p.2 := by
                  intro q2 hq2
                  refine roomsInv_jset hs ?_ q2 hq2
                  intro p hp
                  simp at hp
                refine roomsInv_jset hbase ?_ q hq
                intro p hp
                simp at hp
      | addElement el =>
          cases hc : jget s.conns sid with
          | none => simpa [serverStep, handleMsg, hc] using hs
          | some roomId =>
              obtain ⟨c, r, htr, hrate⟩ := rateOk_spec s.rateBuckets sid t 200
              by_cases hok : c + 1 ≤ 200
              · by_cases hval : validElement el = true
                · cases hg : jget s.rooms roomId with
                  | none =>
                      simpa [serverStep, handleMsg, hc, hrate, hok, hval, hg] using hs
                  | some room =>
                      simp only [serverStep, handleMsg, hc, hrate, decide_eq_true hok,
                        Bool.not_true, Bool.false_eq_true, if_false, hval, hg]
                      intro q hq p hp
                      refine roomsInv_jset hs ?_ q hq p hp
                      intro p2 hp2
                      rcases mem_jset hp2 with h | h
                      · subst h; exact validElement_ElemOK hval
                      · exact hs (roomId, room) (jget_mem hg) p2 h
                · simp only [Bool.not_eq_true] at hval
                  simpa [serverStep, handleMsg, hc, hrate, hok, hval] using hs
              · simpa [serverStep, handleMsg, hc, hrate, hok] using hs
      | updateElement el =>
          cases hc : jget s.conns sid with
          | none => simpa [serverStep, handleMsg, hc] using hs
          | some roomId =>
              obtain ⟨c, r, htr, hrate⟩ := rateOk_spec s.rateBuckets sid t 200
              by_cases hok : c + 1 ≤ 200
              · by_cases hval : validElement el = true
                · cases hg : jget s.rooms roomId with
                  | none =>
                      simpa [serverStep, handleMsg, hc, hrate, hok, hval, hg] using hs
                  | some room =>
                      simp only [serverStep, handleMsg, hc, hrate, decide_eq_true hok,
                        Bool.not_true, Bool.false_eq_true, if_false, hval, hg]
                      intro q hq p hp
                      refine roomsInv_jset hs ?_ q hq p hp
                      intro p2 hp2
                      rcases mem_jset hp2 with h | h
                      · subst h; exact validElement_ElemOK hval
                      · exact hs (roomId, room) (jget_mem hg) p2 h
                · simp only [Bool.not_eq_true] at hval
                  simpa [serverStep, handleMsg, hc, hrate, hok, hval] using hs
              · simpa [serverStep, handleMsg, hc, hrate, hok] using hs
      | drawingPreview el =>
          cases hc : jget s.conns sid with
          | none => simpa [serverStep, handleMsg, hc] using hs
          | some roomId =>
              obtain ⟨c, r, htr, hrate⟩ := rateOk_spec s.rateBuckets sid t 600
              by_cases hok : c + 1 ≤ 600 <;>
                simpa [serverStep, handleMsg, hc, hrate, hok] using hs
      | drawingDone id =>
          cases hc : jget s.conns sid with
          | none => simpa [serverStep, handleMsg, hc] using hs
          | some roomId => simpa [serverStep, handleMsg, hc] using hs
      | textPreview id txt =>
          cases hc : jget s.conns sid with
          | none => simpa [serverStep, handleMsg, hc] using hs
          | some roomId =>
              obtain ⟨c, r, htr, hrate⟩ := rateOk_spec s.rateBuckets sid t 400
              by_cases hok : c + 1 ≤ 400
              · cases hg : jget s.rooms roomId with
                | none => simpa [serverStep, handleMsg, hc, hrate, hok, hg] using hs
                | some room =>
                    cases hid : jget room.elements id with
                    | none =>
                        simpa [serverStep, handleMsg, hc, hrate, hok, hg, hid] using hs
                    | some stored =>
                        simp only [serverStep, handleMsg, hc, hrate, decide_eq_true hok,
                          Bool.not_true, Bool.false_eq_true, if_false, hg, hid]
                        intro q hq p hp
                        refine roomsInv_jset hs ?_ q hq p hp
                        intro p2 hp2
                        rcases mem_jset hp2 with h | h
                        · subst h
                          have hst := hs (roomId, room) (jget_mem hg) (id, stored) (jget_mem hid)
                          exact hst
                        · exact hs (roomId, room) (jget_mem hg) p2 h
              · simpa [serverStep, handleMsg, hc, hrate, hok] using hs
      | textLock id =>
          cases hc : jget s.conns sid with
          | none => simpa [serverStep, handleMsg, hc] using hs
          | some roomId => simpa [serverStep, handleMsg, hc] using hs
      | textUnlock id =>
          cases hc : jget s.conns sid with
          | none => simpa [serverStep, handleMsg, hc] using hs
          | some roomId => simpa [serverStep, handleMsg, hc] using hs
      | deleteElements ids =>
          cases hc : jget s.conns sid with
          | none => simpa [serverStep, handleMsg, hc] using hs
          | some roomId =>
              obtain ⟨c, r, htr, hrate⟩ := rateOk_spec s.rateBuckets sid t 200
              by_cases hok : c + 1 ≤ 200
              · cases hg : jget s.rooms roomId with
                | none => simpa [serverStep, handleMsg, hc, hrate, hok, hg] using hs
                | some room =>
                    simp only [serverStep, handleMsg, hc, hrate, decide_eq_true hok,
                      Bool.not_true, Bool.false_eq_true, if_false, hg]
                    intro q hq p hp
                    refine roomsInv_jset hs ?_ q hq p hp
                    intro p2 hp2
                    exact hs (roomId, room) (jget_mem hg) p2 (mem_foldl_jdel hp2)
              · simpa [serverStep, handleMsg, hc, hrate, hok] using hs
      | cursorMove x y =>
          cases hc : jget s.conns sid with
          | none => simpa [serverStep, handleMsg, hc] using hs
          | some roomId =>
              obtain ⟨c, r, htr, hrate⟩ := rateOk_spec s.rateBuckets sid t 30
              by_cases hok : c + 1 ≤ 30
              · cases hg : jget s.rooms roomId with
                | none => simpa [serverStep, handleMsg, hc, hrate, hok, hg] using hs
                | some room =>
                    cases hu : jget room.users sid with
                    | none =>
                        simp only [serverStep, handleMsg, hc, hrate, decide_eq_true hok,
                          Bool.not_true, Bool.false_eq_true, if_false, hg, hu]
                        intro q hq
                        refine roomsInv_jset hs ?_ q hq
                        intro p hp
                        exact hs (roomId, room) (jget_mem hg) p hp
                    | some u =>
                        simp only [serverStep, handleMsg, hc, hrate, decide_eq_true hok,
                          Bool.not_true, Bool.false_eq_true, if_false, hg, hu]
                        intro q hq
                        refine roomsInv_jset hs ?_ q hq
                        intro p hp
                        exact hs (roomId, room) (jget_mem hg) p hp
              · simpa [serverStep, handleMsg, hc, hrate, hok] using hs
      | clearBoard =>
          cases hc : jget s.conns sid with
          | none => simpa [serverStep, handleMsg, hc] using hs
          | some roomId =>
              cases hg : jget s.rooms roomId with
              | none => simpa [serverStep, handleMsg, hc, hg] using hs
              | some room =>
                  simp only [serverStep, handleMsg, hc, hg]
                  intro q hq
                  refine roomsInv_jset hs ?_ q hq
                  intro p hp
                  simp at hp
      | penDelta id pts => simpa [serverStep, handleMsg] using hs
  | disconnect sid t =>
      cases hc : jget s.conns sid with
      | none => simpa [serverStep, handleDisconnect, hc] using hs
      | some roomId =>
          cases hg : jget s.rooms roomId with
          | none => simpa [serverStep, handleDisconnect, hc, hg] using hs
          | some room =>
              by_cases hempty : (jdel room.users sid).length = 0 <;>
                (simp only [serverStep, handleDisconnect, hc, hg, hempty]
                 intro q hq
                 refine roomsInv_jset hs ?_ q hq
                 intro p hp
                 exact hs (roomId, room) (jget_mem hg) p hp)
  | timerFire roomId t =>
      by_cases hmem : (roomId, t) ∈ s.timers
      · cases hg : jget s.rooms roomId with
        | none => simpa [serverStep, handleTimer, hmem, hg] using hs
        | some room =>
            by_cases hempty : room.users.length = 0
            · simp only [serverStep, handleTimer, hmem, if_pos, hg, hempty, if_true]
              intro q hq
              exact hs q (mem_jdel hq)
            · simpa [serverStep, handleTimer, hmem, hg, hempty] using hs
      · simpa [serverStep, handleTimer, hmem] using hs
  | sweep t =>
      simp only [serverStep, handleSweep]
      intro q hq
      exact hs q (List.mem_filter.mp hq).1

/-- C9: every element stored in any room has an id of length at most 64 and
one of the seven known types; the invariant holds for the initial (empty)
server state and is preserved by every event the server processes —
messages, disconnects, deletion timers and sweeps. -/
theorem C9_store_invariant :
    StoreInv initialServer ∧ ∀ s e, StoreInv s → StoreInv (serverStep s e).1 :=
  ⟨fun q hq => by simp [initialServer] at hq,
   fun s e hs => storeInv_step s e hs⟩

/-- Witness for C9: preservation applied at the concrete state wState for an
add-element message whose payload is valid. -/
theorem C9_store_invariant_witness :
    StoreInv (serverStep wState (.msg "s1" 0 (.addElement elB))).1 :=
  C9_store_invariant.2 wState (.msg "s1" 0 (.addElement elB))
    (by simp only [StoreInv, ElemOK]; decide)

/-! ### C4: rate limiting -/

set_option maxRecDepth 100000

/-- C4 counterexample: the rate window is a single fixed-window bucket per
connection SHARED by all message classes — only the limit argument differs
per class.  Sending 200 drawing-preview messages (well under their 600/s
threshold) and then one single valid durable add-element within the same
second leaves the room empty: the lone durable op of that second is dropped
because the preview traffic consumed the shared counter, refuting the
claimed per-class budget isolation.  The shared bucket ends the second at
count 201. -/
theorem C4_shared_bucket_cex :
    roomElements (serverRun initialServer previewFlood) "r" = some [] ∧
    (jget (serverRun initialServer previewFlood).rateBuckets "s1").map Bucket.count =
      some 201 := by
  decide

/-- C4 amended: rate limiting uses fixed 1-second windows with per-call
thresholds 200 (durable ops), 30 (cursor), 600 (drawing previews) and 400
(text previews), but one shared counter per connection, so one class
consumes the budget of another; still, 201 valid durable ops with distinct
ids sent within one second from one connection result in exactly 200
applied to the room state (the 201st id is absent), and a 31st cursor move
within one second is dropped (the stored cursor keeps the position of the
30th move). -/
theorem C4_rate_limit_amended :
    (roomElements (serverRun initialServer adds201) "r").map List.length = some 200 ∧
    (roomElements (serverRun initialServer adds201) "r").map (fun es => jget es (Nat.repr 200)) =
      some none ∧
    (jget (serverRun initialServer cursor31).rooms "r").map
      (fun room => (jget room.users "s1").map Presence.cursor) =
      some (some (some ((30 : Int), (30 : Int)))) := by
  refine ⟨by decide, by decide, by decide⟩

/-! ### C7: room lifecycle -/

theorem jget_none_of_not_key {α : Type} {m : List (String × α)} {k : String}
    (h : k ∉ m.map Prod.fst) : jget m k = none := by
  induction m with
  | nil => rfl
  | cons q m ih =>
      simp only [List.map_cons, List.mem_cons, not_or] at h
      have hq : q.1 ≠ k := fun hh => h.1 hh.symm
      simp only [jget, if_neg hq]
      exact ih h.2

theorem jget_filter {α : Type} {m : List (String × α)} (hm : KeysNodup m)
    (p : String × α → Bool) (k : String) (v : α) (h : jget m k = some v) :
    jget (m.filter p) k = if p (k, v) then some v else none := by
  induction m with
  | nil => simp [jget] at h
  | cons q m ih =>
      obtain ⟨q1, q2⟩ := q
      have hm2 : KeysNodup m := (List.nodup_cons.mp hm).2
      have hq1 : q1 ∉ m.map Prod.fst := (List.nodup_cons.mp hm).1
      by_cases hq : q1 = k
      · subst hq
        have hj : jget ((q1, q2) :: m) q1 = some q2 := by simp [jget]
        rw [hj] at h
        injection h with h2
        subst h2
        cases hp : p (q1, q2) with
        | true =>
            simp only [List.filter_cons, hp, if_true]
            simp [jget, hp]
        | false =>
            simp only [List.filter_cons, hp, Bool.false_eq_true, if_false]
            refine jget_none_of_not_key fun hmem => ?_
            obtain ⟨x, hx, hfx⟩ := List.mem_map.mp hmem
            exact hq1 (hfx ▸ List.mem_map_of_mem Prod.fst (List.mem_of_mem_filter hx))
      · have hj : jget ((q1, q2) :: m) k = jget m k := by simp [jget, hq]
        rw [hj] at h
        cases hp : p (q1, q2) with
        | true =>
            simp only [List.filter_cons, hp, if_true]
            have hj2 : jget ((q1, q2) :: m.filter p) k = jget (m.filter p) k := by
              simp [jget, hq]
            rw [hj2]
            exact ih hm2 h
        | false =>
            simp only [List.filter_cons, hp, Bool.false_eq_true, if_false]
            exact ih hm2 h

/-- C7 counterexample: a room created at time 0 whose only user leaves at
the 24-hour mark plus 1ms is deleted by a sweep running 1ms later, after
having been EMPTY for only 2ms — the sweep tests age since creation
(now - createdAt > 24h), not 24 hours of emptiness.  Before the sweep the
room still exists (with its pending 5-minute timer); after it, it is gone. -/
theorem C7_sweep_age_cex :
    (jget (serverRun initialServer (sweepTrace.take 2)).rooms "r").map Room.users =
      some [] ∧
    (jget (serverRun initialServer (sweepTrace.take 2)).rooms "r").map Room.createdAt =
      some 0 ∧
    (serverRun initialServer (sweepTrace.take 2)).timers = [("r", 86700001)] ∧
    jget (serverRun initialServer sweepTrace).rooms "r" = none := by
  refine ⟨by decide, by decide, by decide, by decide⟩

/-- C7 amended: (1) a room is created lazily by the first join to its id;
(2) when the last user of a room disconnects at time t, a deletion timeout
for t + 5 minutes is scheduled and the room is kept for now; (3) when the
timeout fires and the room is still empty, the room is deleted; (4) when
the room has gained a user by then, the scheduled cleanup does not delete
it; (5) one sweep round at time t deletes exactly those rooms that are
empty at sweep time and were CREATED more than 24 hours before t —
regardless of how long they have been empty. -/
theorem C7_room_lifecycle :
    (∀ s sid t rid name, ¬ rid.length > 50 → jget s.rooms rid = none →
      ∃ pres, jget (handleMsg s sid t (.joinRoom rid name)).1.rooms rid =
        some ⟨[], [(sid, pres)], t⟩) ∧
    (∀ s sid t rid room, jget s.conns sid = some rid →
      jget s.rooms rid = some room → (jdel room.users sid).length = 0 →
      (rid, t + 5 * 60 * 1000) ∈ (handleDisconnect s sid t).1.timers ∧
      jget (handleDisconnect s sid t).1.rooms rid =
        some { room with users := jdel room.users sid }) ∧
    (∀ s rid τ room, (rid, τ) ∈ s.timers → jget s.rooms rid = some room →
      room.users.length = 0 → jget (handleTimer s rid τ).rooms rid = none) ∧
    (∀ s rid τ room, (rid, τ) ∈ s.timers → jget s.rooms rid = some room →
      room.users.length ≠ 0 → jget (handleTimer s rid τ).rooms rid = some room) ∧
    (∀ s t rid room, KeysNodup s.rooms → jget s.rooms rid = some room →
      jget (handleSweep s t).rooms rid =
        if room.users.length = 0 ∧ room.createdAt + 24 * 3600 * 1000 < t
        then none else some room) := by
  refine ⟨?_, ?_, ?_, ?_, ?_⟩
  · intro s sid t rid name hlen hroom
    refine ⟨⟨joinName name, pickUserColor ⟨[], [], t⟩, none⟩, ?_⟩
    simp only [handleMsg, hlen, if_false, getOrCreateRoom, hroom]
    rw [jset_jset, jget_jset_same]
    rfl
  · intro s sid t rid room hc hroom hempty
    simp only [handleDisconnect, hc, hroom, hempty, if_true]
    exact ⟨List.mem_append_right _ (List.mem_singleton.mpr rfl), jget_jset_same _ _ _⟩
  · intro s rid τ room hmem hroom hempty
    simp only [handleTimer, if_pos hmem, hroom, hempty, if_true]
    exact jget_jdel_same _ _
  · intro s rid τ room hmem hroom hbusy
    simp only [handleTimer, if_pos hmem, hroom, hbusy, if_false]
  · intro s t rid room hnd hroom
    simp only [handleSweep]
    rw [jget_filter hnd _ rid room hroom]
    by_cases hcond : room.users.length = 0 ∧ room.createdAt + 24 * 3600 * 1000 < t
    · simp [hcond.1, hcond.2]
    · rcases not_and_or.mp hcond with h | h <;> simp [h, hcond]

/-- Witness for C7: all five parts applied at concrete states — lazy
creation from the empty server, the last-leaver schedule at wState, timer
deletion at timerStateEmpty, survival at timerStateBusy, and the sweep
characterization at timerStateEmpty. -/
theorem C7_room_lifecycle_witness :
    (∃ pres, jget (handleMsg initialServer "s1" 7 (.joinRoom "r" none)).1.rooms "r" =
      some ⟨[], [("s1", pres)], 7⟩) ∧
    (("r", (5 : Nat) + 5 * 60 * 1000) ∈ (handleDisconnect wState "s1" 5).1.timers) ∧
    (jget (handleTimer timerStateEmpty "r" 300000).rooms "r" = none) ∧
    (jget (handleTimer timerStateBusy "r" 300000).rooms "r" = some wRoom) ∧
    (jget (handleSweep timerStateEmpty 86400001).rooms "r" = none) :=
  ⟨C7_room_lifecycle.1 initialServer "s1" 7 "r" none (by decide) (by decide),
   (C7_room_lifecycle.2.1 wState "s1" 5 "r" wRoom (by decide) (by decide) (by decide)).1,
   C7_room_lifecycle.2.2.1 timerStateEmpty "r" 300000 emptyRoom (by decide) (by decide)
     (by decide),
   C7_room_lifecycle.2.2.2.1 timerStateBusy "r" 300000 wRoom (by decide) (by decide)
     (by decide),
   by
     have h := C7_room_lifecycle.2.2.2.2 timerStateEmpty 86400001 "r" emptyRoom
       (by simp only [KeysNodup]; decide) (by decide)
     rw [h]
     decide⟩

/-! ### C3: pen-delta relay -/

/-- C3: server.js registers handlers for drawing-preview, drawing-done and
the other events, but NO handler for pen-delta, so a pen-delta message from
a joined client is discarded: the server state is unchanged and nothing is
relayed to the room — while a drawing-preview from the same state IS
relayed to the other room members with the sender id attached.  The client
side is consistent with an intended relay: its pen-delta handler rebuilds
the stroke as the concatenation of the delta suffixes (evaluated here for
the chunking [p0], [p1, p2] of a three-point stroke). -/
theorem C3_pen_delta_dropped_by_server :
    serverStep wState (.msg "s1" 0 (.penDelta "st1" [⟨0, 0⟩])) = (wState, []) ∧
    (serverStep wState (.msg "s1" 0 (.drawingPreview elA))).2 =
      [.drawingPreviewE "r" "s1" elA] ∧
    clientPenDelta (clientPenDelta [] "u1" "st1" [⟨0, 0⟩] (some [])) "u1" "st1"
        [⟨1, 0⟩, ⟨2, 0⟩] none =
      [("u1", ⟨"st1", [⟨0, 0⟩, ⟨1, 0⟩, ⟨2, 0⟩], []⟩)] := by
  refine ⟨by decide, by decide, by decide⟩

/-! ### C1: restoreSnapshot emits exactly the minimal diff -/

theorem upsertOp_eq_iff_add (prev : List (String × Element)) (pe : String × Element)
    (el : Element) :
    upsertOp prev pe = some (COp.add el) ↔ jget prev pe.1 = none ∧ pe.2 = el := by
  unfold upsertOp
  cases hj : jget prev pe.1 with
  | none => simp
  | some old => by_cases hne : old = pe.2 <;> simp [hne]

theorem upsertOp_eq_iff_update (prev : List (String × Element)) (pe : String × Element)
    (el : Element) :
    upsertOp prev pe = some (COp.update el) ↔
      ∃ old, jget prev pe.1 = some old ∧ old ≠ el ∧ pe.2 = el := by
  unfold upsertOp
  cases hj : jget prev pe.1 with
  | none => simp
  | some old =>
      by_cases hne : old = pe.2
      · subst hne
        simp
      · simp only [if_pos hne, Option.some.injEq, COp.update.injEq,
          Option.some.injEq]
        constructor
        · intro h
          subst h
          exact ⟨old, rfl, hne, rfl⟩
        · rintro ⟨old2, h1, h2, h3⟩
          exact h3

theorem upsertOp_ne_clear (prev : List (String × Element)) (pe : String × Element) :
    upsertOp prev pe ≠ some COp.clear := by
  unfold upsertOp
  cases hj : jget prev pe.1 with
  | none => simp
  | some old => by_cases hne : old = pe.2 <;> simp [hne]

theorem upsertOp_ne_delete (prev : List (String × Element)) (pe : String × Element)
    (ids : List String) :
    upsertOp prev pe ≠ some (COp.deleteEls ids) := by
  unfold upsertOp
  cases hj : jget prev pe.1 with
  | none => simp
  | some old => by_cases hne : old = pe.2 <;> simp [hne]

theorem deleteOp_eq_iff (snap : List (String × Element)) (pe : String × Element)
    (c : COp) :
    deleteOp snap pe = some c ↔ jget snap pe.1 = none ∧ c = COp.deleteEls [pe.1] := by
  unfold deleteOp jhas
  cases hj : jget snap pe.1 <;> simp [eq_comm]

theorem restore_no_clear (prev snap : List (String × Element)) :
    COp.clear ∉ (restoreSnapshot prev snap).2 := by
  simp only [restoreSnapshot, List.mem_append, List.mem_filterMap]
  rintro (⟨pe, hpe, hf⟩ | ⟨pe, hpe, hg⟩)
  · exact upsertOp_ne_clear prev pe hf
  · obtain ⟨-, hc⟩ := (deleteOp_eq_iff snap pe _).mp hg
    cases hc

theorem filterMap_eq_single {α β : Type} (g : α → Option β) (l : List α)
    (hl : l.Nodup) (a : α) (x : β) (ha : a ∈ l) (hga : g a = some x)
    (hother : ∀ b ∈ l, b ≠ a → g b = none) : l.filterMap g = [x] := by
  induction l with
  | nil => cases ha
  | cons q l ih =>
      rcases List.mem_cons.mp ha with rfl | ha2
      · simp only [List.filterMap_cons, hga]
        have hnil : ∀ b ∈ l, g b = none := fun b hb =>
          hother b (List.mem_cons_of_mem _ hb)
            (fun hba => (List.nodup_cons.mp hl).1 (hba ▸ hb))
        rw [List.filterMap_eq_nil_iff.mpr hnil]
      · have hq : g q = none :=
          hother q (List.mem_cons_self _ _)
            (fun hqa => (List.nodup_cons.mp hl).1 (hqa ▸ ha2))
        simp only [List.filterMap_cons, hq]
        exact ih (List.nodup_cons.mp hl).2 ha2
          (fun b hb hbne => hother b (List.mem_cons_of_mem _ hb) hbne)

theorem nodup_of_keysNodup {α : Type} {m : List (String × α)} (h : KeysNodup m) :
    m.Nodup :=
  List.Nodup.of_map Prod.fst h

/-- C1: restoring a snapshot (the algorithm of restoreSnapshot, called by
undo and redo) makes the replica equal to the snapshot and emits exactly
the minimal diff against the prior replica: an add for exactly the ids
present only in the snapshot, an update for exactly the ids with a
different value, a singleton delete-elements call for exactly the ids
present only in the prior state, and never a clear-board (also along the
undo/redo wrappers, including their boundary no-ops).  When the snapshot is
the prior state minus exactly one id, the emitted operations are exactly
one delete-elements call with that id, and nothing else. -/
theorem C1_restore_minimal_diff :
    (∀ prev snap, (restoreSnapshot prev snap).1 = snap) ∧
    (∀ prev snap, COp.clear ∉ (restoreSnapshot prev snap).2) ∧
    (∀ cs, COp.clear ∉ (undo cs).2) ∧
    (∀ cs, COp.clear ∉ (redo cs).2) ∧
    (∀ prev snap el, KeysNodup prev → KeysNodup snap →
      (COp.add el ∈ (restoreSnapshot prev snap).2 ↔
        ∃ k, jget snap k = some el ∧ jget prev k = none)) ∧
    (∀ prev snap el, KeysNodup prev → KeysNodup snap →
      (COp.update el ∈ (restoreSnapshot prev snap).2 ↔
        ∃ k old, jget snap k = some el ∧ jget prev k = some old ∧ old ≠ el)) ∧
    (∀ prev snap ids, KeysNodup prev →
      (COp.deleteEls ids ∈ (restoreSnapshot prev snap).2 ↔
        ∃ k old, ids = [k] ∧ jget prev k = some old ∧ jget snap k = none)) ∧
    (∀ prev d old, KeysNodup prev → jget prev d = some old →
      (restoreSnapshot prev (jdel prev d)).2 = [COp.deleteEls [d]]) := by
  refine ⟨fun prev snap => rfl, restore_no_clear, ?_, ?_, ?_, ?_, ?_, ?_⟩
  · intro cs
    unfold undo
    by_cases hb : cs.historyIdx ≤ 0
    · simp [hb]
    · simp only [hb, if_false]
      exact restore_no_clear _ _
  · intro cs
    unfold redo
    by_cases hb : cs.historyIdx ≥ (cs.history.length : Int) - 1
    · simp [hb]
    · simp only [hb, if_false]
      exact restore_no_clear _ _
  · intro prev snap el hprev hsnap
    simp only [restoreSnapshot, List.mem_append, List.mem_filterMap]
    constructor
    · rintro (⟨⟨k, v⟩, hpe, hf⟩ | ⟨pe, hpe, hg⟩)
      · obtain ⟨hnone, hel⟩ := (upsertOp_eq_iff_add prev (k, v) el).mp hf
        subst hel
        exact ⟨k, (mem_iff_jget hsnap k v).mp hpe, hnone⟩
      · obtain ⟨-, hc⟩ := (deleteOp_eq_iff snap pe _).mp hg
        cases hc
    · rintro ⟨k, hks, hkp⟩
      exact Or.inl ⟨(k, el), (mem_iff_jget hsnap k el).mpr hks,
        (upsertOp_eq_iff_add prev (k, el) el).mpr ⟨hkp, rfl⟩⟩
  · intro prev snap el hprev hsnap
    simp only [restoreSnapshot, List.mem_append, List.mem_filterMap]
    constructor
    · rintro (⟨⟨k, v⟩, hpe, hf⟩ | ⟨pe, hpe, hg⟩)
      · obtain ⟨old, hold, hne, hel⟩ := (upsertOp_eq_iff_update prev (k, v) el).mp hf
        subst hel
        exact ⟨k, old, (mem_iff_jget hsnap k v).mp hpe, hold, hne⟩
      · obtain ⟨-, hc⟩ := (deleteOp_eq_iff snap pe _).mp hg
        cases hc
    · rintro ⟨k, old, hks, hkp, hne⟩
      exact Or.inl ⟨(k, el), (mem_iff_jget hsnap k el).mpr hks,
        (upsertOp_eq_iff_update prev (k, el) el).mpr ⟨old, hkp, hne, rfl⟩⟩
  · intro prev snap ids hprev
    simp only [restoreSnapshot, List.mem_append, List.mem_filterMap]
    constructor
    · rintro (⟨pe, hpe, hf⟩ | ⟨⟨k, v⟩, hpe, hg⟩)
      · exact absurd hf (upsertOp_ne_delete prev pe ids)
      · obtain ⟨hnone, hc⟩ := (deleteOp_eq_iff snap (k, v) _).mp hg
        injection hc with hc2
        exact ⟨k, v, hc2, (mem_iff_jget hprev k v).mp hpe, hnone⟩
    · rintro ⟨k, old, rfl, hkp, hks⟩
      exact Or.inr ⟨(k, old), (mem_iff_jget hprev k old).mpr hkp,
        (deleteOp_eq_iff snap (k, old) _).mpr ⟨hks, rfl⟩⟩
  · intro prev d old hprev hd
    simp only [restoreSnapshot]
    have hup : (jdel prev d).filterMap (upsertOp prev) = [] := by
      rw [List.filterMap_eq_nil_iff]
      intro pe hpe
      have hmem : pe ∈ prev := mem_jdel hpe
      have hj : jget prev pe.1 = some pe.2 := by
        obtain ⟨k, v⟩ := pe
        exact (mem_iff_jget hprev k v).mp hmem
      unfold upsertOp
      rw [hj]
      simp
    have hdel : prev.filterMap (deleteOp (jdel prev d)) = [COp.deleteEls [d]] := by
      refine filterMap_eq_single _ prev (nodup_of_keysNodup hprev) (d, old) _
        ((mem_iff_jget hprev d old).mpr hd) ?_ ?_
      · unfold deleteOp jhas
        rw [jget_jdel_same]
        rfl
      · intro b hb hbne
        by_cases hbk : b.1 = d
        · obtain ⟨bk, bv⟩ := b
          have hbk2 : bk = d := hbk
          have hj2 : jget prev bk = some bv := (mem_iff_jget hprev bk bv).mp hb
          rw [hbk2, hd] at hj2
          injection hj2 with h2
          exact absurd (by rw [hbk2, h2]) hbne
        · unfold deleteOp jhas
          rw [jget_jdel_ne prev d b.1 (fun hh => hbk hh.symm)]
          obtain ⟨bk, bv⟩ := b
          rw [(mem_iff_jget hprev bk bv).mp hb]
          rfl
    rw [hup, hdel]
    rfl

/-- Witness for C1: at the concrete prior state with elements A and B and
the snapshot equal to that state minus id B, the emitted operations are
exactly one delete-elements call with id B. -/
theorem C1_restore_minimal_diff_witness :
    (restoreSnapshot [("A", elA), ("B", elB)]
        (jdel [("A", elA), ("B", elB)] "B")).2 = [COp.deleteEls ["B"]] :=
  C1_restore_minimal_diff.2.2.2.2.2.2.2 [("A", elA), ("B", elB)] "B" elB
    (by simp only [KeysNodup]; decide) (by decide)

/-! ### C6: history round trips -/

theorem undo_at (E : List (String × Element)) (h : List (List (String × Element)))
    (n : Nat) :
    (undo ⟨E, h, ((n + 1 : Nat) : Int)⟩).1 = ⟨h.getD n [], h, (n : Int)⟩ := by
  unfold undo
  rw [if_neg (by push_cast; omega)]
  simp only [restoreSnapshot]
  have h1 : (((n + 1 : Nat) : Int) - 1).toNat = n := by omega
  have h2 : ((n + 1 : Nat) : Int) - 1 = (n : Int) := by push_cast; ring
  rw [h1, h2]

theorem redo_at (E : List (String × Element)) (h : List (List (String × Element)))
    (n : Nat) (hlt : n + 1 < h.length) :
    (redo ⟨E, h, (n : Int)⟩).1 = ⟨h.getD (n + 1) [], h, ((n + 1 : Nat) : Int)⟩ := by
  unfold redo
  rw [if_neg (by push_cast; omega)]
  simp only [restoreSnapshot]
  have h1 : ((n : Int) + 1).toNat = n + 1 := by omega
  have h2 : (n : Int) + 1 = ((n + 1 : Nat) : Int) := by push_cast; ring
  rw [h1, h2]

/-- C6 counterexample: execute the sequence of the claim as written —
push(); mutate (add element A); — starting from the seeded post-join state.
undo() does restore the pre-mutation replica (the empty board), but redo()
after that cannot restore the post-mutation value: the mutation was never
snapshotted, because this code pushes BEFORE the mutation only duplicates
the pre-mutation state, so redo yields the empty board instead of the
replica holding A. -/
theorem C6_push_mutate_undo_redo_cex :
    (undo csAfterPushThenMutate).1.elements = (pushHistory seededCS).elements ∧
    csAfterPushThenMutate.elements = [("A", elA)] ∧
    (redo (undo csAfterPushThenMutate).1).1.elements ≠ [("A", elA)] := by
  refine ⟨by decide, by decide, by decide⟩

/-- C6 amended: with the discipline the code actually follows — mutate the
replica, THEN pushHistory() (as every tool handler in script.js does) —
undo() restores a replica value-equal to the pre-mutation state and redo()
after that restores the post-mutation value, for every client state whose
replica equals the current history entry (as holds after the room-state
seeding and after every push, undo or redo), including across the 80-entry
history cap.  The example of the claim holds as stated: from the seeded
empty board, add A, push, add B, push, then undo gives A only, undo gives
the empty board, and redo twice gives A and B. -/
theorem C6_mutate_push_roundtrip :
    (∀ (cs : ClientState) (E1 : List (String × Element)) (n : Nat),
      cs.historyIdx = (n : Int) → n < cs.history.length →
      cs.history.getD n [] = cs.elements →
      (undo (pushHistory { cs with elements := E1 })).1.elements = cs.elements ∧
      (redo (undo (pushHistory { cs with elements := E1 })).1).1.elements = E1) ∧
    ((undo (pushHistory { (pushHistory { seededCS with elements := [("A", elA)] }) with
        elements := jset (pushHistory { seededCS with elements := [("A", elA)] }).elements "B" elB })).1.elements =
      [("A", elA)] ∧
     (undo (undo (pushHistory { (pushHistory { seededCS with elements := [("A", elA)] }) with
        elements := jset (pushHistory { seededCS with elements := [("A", elA)] }).elements "B" elB })).1).1.elements =
      [] ∧
     (redo (redo (undo (undo (pushHistory { (pushHistory { seededCS with elements := [("A", elA)] }) with
        elements := jset (pushHistory { seededCS with elements := [("A", elA)] }).elements "B" elB })).1).1).1).1.elements =
      [("A", elA), ("B", elB)]) := by
  constructor
  · intro cs E1 n hidx hlen hcur
    obtain ⟨E0, hist, idx⟩ := cs
    simp only at hidx hlen hcur
    subst hidx
    dsimp only
    have ht1 : ((n : Int) + 1).toNat = n + 1 := by omega
    have hlen1 : (hist.take (n + 1)).length = n + 1 := by
      rw [List.length_take]; omega
    have hL : (hist.take (n + 1) ++ [E1]).length = n + 2 := by
      simp [hlen1]
    by_cases hcap : (hist.take (n + 1) ++ [E1]).length > MAX_HISTORY
    · -- the cap drops the oldest entry
      have hn79 : 79 ≤ n := by
        simp only [MAX_HISTORY] at hcap; omega
      have hdrop : (hist.take (n + 1) ++ [E1]).drop 1 = (hist.take (n + 1)).drop 1 ++ [E1] :=
        List.drop_append_of_le_length (by omega)
      have hlen3 : ((hist.take (n + 1)).drop 1).length = n := by
        simp [hlen1]
      have hlen2 : ((hist.take (n + 1)).drop 1 ++ [E1]).length = n + 1 := by
        rw [List.length_append, hlen3]
        rfl
      have hidx2 : ((((hist.take (n + 1)).drop 1 ++ [E1])).length : Int) - 1 =
          (((n - 1) + 1 : Nat) : Int) := by
        rw [hlen2]; push_cast; omega
      have hp : pushHistory ⟨E1, hist, (n : Int)⟩ =
          ⟨E1, (hist.take (n + 1)).drop 1 ++ [E1], (((n - 1) + 1 : Nat) : Int)⟩ := by
        simp only [pushHistory, ht1, if_pos hcap, hdrop, hidx2]
      have hsnap : ((hist.take (n + 1)).drop 1 ++ [E1]).getD (n - 1) [] = E0 := by
        rw [List.getD_append _ _ _ _ (by omega)]
        rw [List.getD_eq_getElem _ _ (by omega)]
        rw [List.getElem_drop]
        have hb : 1 + (n - 1) < (hist.take (n + 1)).length := by omega
        have hb2 : 1 + (n - 1) = n := by omega
        rw [← List.getD_eq_getElem _ [] hb]
        rw [hb2]
        rw [List.getD_eq_getElem _ _ (by omega), List.getElem_take,
          ← List.getD_eq_getElem _ [] hlen]
        exact hcur
      have hsnap2 : ((hist.take (n + 1)).drop 1 ++ [E1]).getD ((n - 1) + 1) [] = E1 := by
        rw [List.getD_append_right _ _ _ _ (by omega)]
        rw [hlen3]
        have : (n - 1) + 1 - n = 0 := by omega
        rw [this]
        rfl
      rw [hp, undo_at, hsnap]
      refine ⟨rfl, ?_⟩
      rw [redo_at _ _ _ (by omega), hsnap2]
    · have hidx2 : (((hist.take (n + 1) ++ [E1])).length : Int) - 1 =
          ((n + 1 : Nat) : Int) := by
        rw [hL]; push_cast; ring
      have hp : pushHistory ⟨E1, hist, (n : Int)⟩ =
          ⟨E1, hist.take (n + 1) ++ [E1], ((n + 1 : Nat) : Int)⟩ := by
        simp only [pushHistory, ht1, if_neg hcap, hidx2]
      have hsnap : (hist.take (n + 1) ++ [E1]).getD n [] = E0 := by
        rw [List.getD_append _ _ _ _ (by omega)]
        rw [List.getD_eq_getElem _ _ (by omega), List.getElem_take,
          ← List.getD_eq_getElem _ [] hlen]
        exact hcur
      have hsnap2 : (hist.take (n + 1) ++ [E1]).getD (n + 1) [] = E1 := by
        rw [List.getD_append_right _ _ _ _ (by omega)]
        rw [hlen1]
        have : n + 1 - (n + 1) = 0 := by omega
        rw [this]
        rfl
      rw [hp, undo_at, hsnap]
      refine ⟨rfl, ?_⟩
      rw [redo_at _ _ _ (by omega), hsnap2]
  · refine ⟨by decide, by decide, by decide⟩

/-- Witness for C6: the round trip applied at the concrete seeded state,
mutating the empty board by adding element A: undo restores the empty
board and redo restores the board holding A. -/
theorem C6_mutate_push_roundtrip_witness :
    (undo (pushHistory { seededCS with elements := [("A", elA)] })).1.elements =
      seededCS.elements ∧
    (redo (undo (pushHistory { seededCS with elements := [("A", elA)] })).1).1.elements =
      [("A", elA)] :=
  C6_mutate_push_roundtrip.1 seededCS [("A", elA)] 0 (by decide) (by decide) (by decide)

/-! ### C2: eraser segmentation -/

theorem runsGo_eq_seedRuns :
    ∀ (rest : List (Nat × Pt)) (last : Nat) (seg : List Pt) (acc : List (List Pt)),
      runsGo rest last seg acc = acc ++ seedRuns seg last rest := by
  intro rest
  induction rest with
  | nil =>
      intro last seg acc
      simp only [runsGo, seedRuns]
      by_cases h : 2 ≤ seg.length <;> simp [h]
  | cons iq rest ih =>
      intro last seg acc
      simp only [runsGo, seedRuns]
      by_cases hc : iq.1 = last + 1
      · rw [if_pos hc, if_pos hc, ih]
      · rw [if_neg hc, if_neg hc, ih]
        by_cases h2 : 2 ≤ seg.length <;> simp [h2, List.append_assoc]

theorem buildRuns_cons (iq : Nat × Pt) (rest : List (Nat × Pt)) :
    buildRuns (iq :: rest) = seedRuns [iq.2] iq.1 rest := by
  simp [buildRuns, runsGo_eq_seedRuns]

theorem seedRuns_eq_chunkSeed :
    ∀ (rest : List (Nat × Pt)) (c : List (Nat × Pt)) (last : Nat),
      seedRuns (c.map Prod.snd) last rest =
        ((chunkSeed c last rest).filter fun d => decide (2 ≤ d.length)).map
          (List.map Prod.snd) := by
  intro rest
  induction rest with
  | nil =>
      intro c last
      simp only [seedRuns, chunkSeed, List.length_map]
      by_cases h : 2 ≤ c.length <;> simp [h]
  | cons iq rest ih =>
      intro c last
      simp only [seedRuns, chunkSeed]
      by_cases hc : iq.1 = last + 1
      · rw [if_pos hc, if_pos hc]
        have hmap : c.map Prod.snd ++ [iq.2] = (c ++ [iq]).map Prod.snd := by simp
        rw [hmap, ih]
      · rw [if_neg hc, if_neg hc]
        rw [show [iq.2] = ([iq] : List (Nat × Pt)).map Prod.snd from rfl, ih]
        simp only [List.filter_cons, List.length_map]
        by_cases h2 : 2 ≤ c.length <;> simp [h2]

theorem chunkSeed_flatten :
    ∀ (rest : List (Nat × Pt)) (c : List (Nat × Pt)) (last : Nat),
      (chunkSeed c last rest).flatten = c ++ rest := by
  intro rest
  induction rest with
  | nil => intro c last; simp [chunkSeed]
  | cons iq rest ih =>
      intro c last
      simp only [chunkSeed]
      by_cases hc : iq.1 = last + 1
      · rw [if_pos hc, ih]
        simp
      · rw [if_neg hc]
        simp [ih]

theorem chunkSeed_chains :
    ∀ (rest : List (Nat × Pt)) (c : List (Nat × Pt)) (last : Nat),
      List.Chain' (fun a b : Nat × Pt => b.1 = a.1 + 1) c →
      (∀ x ∈ c.getLast?, x.1 = last) →
      ∀ d ∈ chunkSeed c last rest, List.Chain' (fun a b : Nat × Pt => b.1 = a.1 + 1) d := by
  intro rest
  induction rest with
  | nil =>
      intro c last hch hlast d hd
      simp only [chunkSeed, List.mem_singleton] at hd
      subst hd
      exact hch
  | cons iq rest ih =>
      intro c last hch hlast d hd
      simp only [chunkSeed] at hd
      by_cases hc : iq.1 = last + 1
      · rw [if_pos hc] at hd
        refine ih (c ++ [iq]) iq.1 ?_ ?_ d hd
        · refine List.Chain'.append hch (List.chain'_singleton _) ?_
          intro x hx y hy
          simp only [List.head?_cons, Option.mem_some_iff] at hy
          subst hy
          rw [hc, hlast x hx]
        · intro x hx
          rw [List.getLast?_append] at hx
          have hx2 : x = iq := by
            have := hx
            simp [Option.or] at this
            exact this.symm
          subst hx2
          rfl
      · rw [if_neg hc] at hd
        rcases List.mem_cons.mp hd with rfl | hd2
        · exact hch
        · refine ih [iq] iq.1 (List.chain'_singleton _) ?_ d hd2
          intro x hx
          simp only [List.getLast?_singleton, Option.mem_some_iff] at hx
          subst hx
          rfl

theorem chunkSeed_ne_nil :
    ∀ (rest : List (Nat × Pt)) (c : List (Nat × Pt)) (last : Nat), c ≠ [] →
      ∀ d ∈ chunkSeed c last rest, d ≠ [] := by
  intro rest
  induction rest with
  | nil =>
      intro c last hc d hd
      simp only [chunkSeed, List.mem_singleton] at hd
      subst hd
      exact hc
  | cons iq rest ih =>
      intro c last hc d hd
      simp only [chunkSeed] at hd
      by_cases hcc : iq.1 = last + 1
      · rw [if_pos hcc] at hd
        exact ih (c ++ [iq]) iq.1 (by simp) d hd
      · rw [if_neg hcc] at hd
        rcases List.mem_cons.mp hd with rfl | hd2
        · exact hc
        · exact ih [iq] iq.1 (by simp) d hd2

theorem survivorGroups_flatten (s : List (Nat × Pt)) :
    (survivorGroups s).flatten = s := by
  cases s with
  | nil => rfl
  | cons x rest => simp [survivorGroups, chunkSeed_flatten]

theorem survivorGroups_chains (s : List (Nat × Pt)) :
    ∀ d ∈ survivorGroups s, List.Chain' (fun a b : Nat × Pt => b.1 = a.1 + 1) d := by
  cases s with
  | nil => intro d hd; cases hd
  | cons x rest =>
      intro d hd
      refine chunkSeed_chains rest [x] x.1 (List.chain'_singleton _) ?_ d hd
      intro y hy
      simp only [List.getLast?_singleton, Option.mem_some_iff] at hy
      subst hy
      rfl

theorem buildRuns_eq_groups (s : List (Nat × Pt)) :
    buildRuns s =
      ((survivorGroups s).filter fun d => decide (2 ≤ d.length)).map
        (List.map Prod.snd) := by
  cases s with
  | nil => rfl
  | cons x rest =>
      rw [buildRuns_cons, show [x.2] = ([x] : List (Nat × Pt)).map Prod.snd from rfl,
        seedRuns_eq_chunkSeed]
      rfl

theorem survivorsOf_nodup (pts : List Pt) (p : Pt) (radius : Int) :
    (survivorsOf pts p radius).Nodup := by
  have h1 : pts.enum.Nodup := by
    refine List.Nodup.of_map Prod.fst ?_
    rw [List.enum_map_fst]
    exact List.nodup_range _
  exact h1.filter _

theorem flatten_filter_partition (s : List (Nat × Pt)) (hs : s.Nodup)
    (groups : List (List (Nat × Pt))) (hflat : groups.flatten = s) :
    ∀ iq, iq ∈ ((groups.filter fun d => decide (2 ≤ d.length)).flatten) ↔
      (iq ∈ s ∧ iq ∉ ((groups.filter fun d => !decide (2 ≤ d.length)).flatten)) := by
  intro iq
  have hperm : List.Perm
      ((groups.filter fun d => decide (2 ≤ d.length)) ++
        (groups.filter fun d => !decide (2 ≤ d.length))) groups :=
    List.filter_append_perm _ _
  have hpj : List.Perm
      (((groups.filter fun d => decide (2 ≤ d.length)).flatten) ++
        ((groups.filter fun d => !decide (2 ≤ d.length)).flatten)) s := by
    rw [← List.flatten_append, ← hflat]
    exact hperm.flatten
  have hnd := hpj.nodup_iff.mpr (hflat ▸ hs)
  have hdisj := (List.nodup_append.mp hnd).2.2
  constructor
  · intro h
    exact ⟨hpj.mem_iff.mp (List.mem_append_left _ h), fun hsm => hdisj h hsm⟩
  · rintro ⟨hmem, hnot⟩
    rcases List.mem_append.mp (hpj.mem_iff.mpr hmem) with h | h
    · exact h
    · exact absurd h hnot

theorem penErase_unchanged_of_none_erased (pts : List Pt) (sw : Option Int) (p : Pt)
    (radius : Int) (hE : ∀ iq ∈ pts.enum, hypotLt iq.2 p radius = false) :
    penErase pts sw p radius = .unchanged := by
  simp only [penErase]
  by_cases hhit : (pts.any (fun q => hypotLt q p (radius + strokeWidthOf sw)) ||
      (pts.zip pts.tail).any fun ab => segDistLt p ab.1 ab.2 (radius + strokeWidthOf sw)) = true
  · have hall : survivorsOf pts p radius = pts.enum := by
      unfold survivorsOf
      refine List.filter_eq_self.mpr fun iq hiq => ?_
      simp [hE iq hiq]
    simp [hhit, hall, List.enum_length]
  · simp only [Bool.not_eq_true] at hhit
    simp [hhit]

theorem strokeWidthOf_nonneg (sw : Option Int) (hsw : ∀ w ∈ sw, (0 : Int) ≤ w) :
    0 ≤ strokeWidthOf sw := by
  unfold strokeWidthOf
  cases sw with
  | none => norm_num
  | some w =>
      by_cases hw : w = 0
      · simp [hw]
      · simp only [if_neg hw]
        exact hsw w rfl

theorem penErase_split_of_some_erased (pts : List Pt) (sw : Option Int) (p : Pt)
    (radius : Int) (hsw : ∀ w ∈ sw, (0 : Int) ≤ w)
    (hE : ∃ iq ∈ pts.enum, hypotLt iq.2 p radius = true) :
    penErase pts sw p radius = .split (buildRuns (survivorsOf pts p radius)) := by
  obtain ⟨iq, hiq, hlt⟩ := hE
  have hsw0 : 0 ≤ strokeWidthOf sw := strokeWidthOf_nonneg sw hsw
  have hhit : pts.any (fun q => hypotLt q p (radius + strokeWidthOf sw)) = true := by
    rw [List.any_eq_true]
    refine ⟨iq.2, ?_, ?_⟩
    · have h2 := List.enum_map_snd pts
      rw [← h2]
      exact List.mem_map_of_mem Prod.snd hiq
    · unfold hypotLt at hlt ⊢
      rw [Bool.and_eq_true, decide_eq_true_eq, decide_eq_true_eq] at hlt
      obtain ⟨hr, hd⟩ := hlt
      rw [Bool.and_eq_true]
      refine ⟨decide_eq_true (by linarith), decide_eq_true ?_⟩
      have hsq : radius ^ 2 ≤ (radius + strokeWidthOf sw) ^ 2 := by nlinarith
      linarith
  have hlen : ¬ ((survivorsOf pts p radius).length = pts.length) := by
    unfold survivorsOf
    have hlt2 : (pts.enum.filter fun iq : Nat × Pt => !hypotLt iq.2 p radius).length <
        pts.enum.length :=
      List.length_filter_lt_length_iff_exists.mpr ⟨iq, hiq, by simp [hlt]⟩
    rw [List.enum_length] at hlt2
    omega
  simp only [penErase, hhit, Bool.true_or, Bool.not_true, Bool.false_eq_true, if_false]
  simp [hlen]

/-- C2: the pen branch of checkErase.  (1) If no point of the stroke lies
strictly within the eraser radius, the element is left unchanged (whether or
not the coarse hit test fires).  (2) If some point is erased (and the stroke
width is nonnegative, as the UI guarantees), the branch deletes the original
and produces exactly one new element per maximal run of
originally-contiguous surviving indices of length at least 2: the output is
the image of the groups of consecutive surviving indices filtered to length
at least 2; every output run has length at least 2, is (in order) a
sub-sequence of the index-annotated survivor list, and carries strictly
consecutive original indices (so no run joins two points that were not
adjacent among the original indices); and an index-point pair lies in the
flattened output iff it survived (is in P minus E, as an indexed list) and
does not belong to a discarded short run.  (3) On the queue level the
original element id is deleted and one new element per run is added, with
the style copied verbatim onto every piece. -/
theorem C2_eraser_segmentation :
    (∀ (pts : List Pt) (sw : Option Int) (p : Pt) (radius : Int),
      (∀ iq ∈ pts.enum, hypotLt iq.2 p radius = false) →
      penErase pts sw p radius = .unchanged) ∧
    (∀ (pts : List Pt) (sw : Option Int) (p : Pt) (radius : Int),
      (∀ w ∈ sw, (0 : Int) ≤ w) →
      (∃ iq ∈ pts.enum, hypotLt iq.2 p radius = true) →
      penErase pts sw p radius =
        .split (((survivorGroups (survivorsOf pts p radius)).filter
          fun d => decide (2 ≤ d.length)).map (List.map Prod.snd)) ∧
      (∀ d ∈ (survivorGroups (survivorsOf pts p radius)).filter
          fun d => decide (2 ≤ d.length),
        2 ≤ d.length ∧ d.Sublist (survivorsOf pts p radius) ∧
        List.Chain' (fun a b : Nat × Pt => b.1 = a.1 + 1) d) ∧
      (∀ iq, iq ∈ ((survivorGroups (survivorsOf pts p radius)).filter
          fun d => decide (2 ≤ d.length)).flatten ↔
        (iq ∈ survivorsOf pts p radius ∧
          iq ∉ ((survivorGroups (survivorsOf pts p radius)).filter
            fun d => !decide (2 ≤ d.length)).flatten))) ∧
    (∀ (elId : String) (style : List (String × String)) (pts : List Pt)
      (sw : Option Int) (p : Pt) (radius : Int) (fresh : Nat → String),
      (∀ w ∈ sw, (0 : Int) ≤ w) →
      (∃ iq ∈ pts.enum, hypotLt iq.2 p radius = true) →
      (penEraseQueues elId style pts sw p radius fresh).1 = [elId] ∧
      (penEraseQueues elId style pts sw p radius fresh).2.map PenPiece.points =
        buildRuns (survivorsOf pts p radius) ∧
      ∀ piece ∈ (penEraseQueues elId style pts sw p radius fresh).2,
        piece.style = style) := by
  refine ⟨penErase_unchanged_of_none_erased, ?_, ?_⟩
  · intro pts sw p radius hsw hE
    have hsplit := penErase_split_of_some_erased pts sw p radius hsw hE
    refine ⟨by rw [hsplit, buildRuns_eq_groups], ?_, ?_⟩
    · intro d hd
      have hmem := (List.mem_filter.mp hd).1
      have hlen2 : 2 ≤ d.length := by
        have := (List.mem_filter.mp hd).2
        simpa using this
      refine ⟨hlen2, ?_, survivorGroups_chains _ d hmem⟩
      rw [← survivorGroups_flatten (survivorsOf pts p radius)]
      exact List.sublist_flatten_of_mem hmem
    · exact flatten_filter_partition _ (survivorsOf_nodup pts p radius) _
        (survivorGroups_flatten _)
  · intro elId style pts sw p radius fresh hsw hE
    have hsplit := penErase_split_of_some_erased pts sw p radius hsw hE
    have hq : penEraseQueues elId style pts sw p radius fresh =
        ([elId], (buildRuns (survivorsOf pts p radius)).enum.map
          fun js => PenPiece.mk (fresh js.1) js.2 style) := by
      simp only [penEraseQueues, hsplit]
    rw [hq]
    refine ⟨rfl, ?_, ?_⟩
    · rw [List.map_map]
      have hcomp : (PenPiece.points ∘
          fun js : Nat × List Pt => PenPiece.mk (fresh js.1) js.2 style) = Prod.snd := rfl
      rw [hcomp, List.enum_map_snd]
    · intro piece hp
      rcases List.mem_map.mp hp with ⟨js, hjs, hpe⟩
      rw [← hpe]

/-- Witness for C2: a five-point horizontal stroke erased at its middle
point splits into the two surviving two-point runs; a stroke far from the
contact point is unchanged; a three-point stroke erased at its middle point
loses everything but two one-point runs, which are discarded; the queue
level deletes the original id and adds one piece per run with the style
copied.  Hypotheses are discharged by computation. -/
theorem C2_eraser_segmentation_witness :
    penErase [⟨0, 0⟩, ⟨1, 0⟩, ⟨2, 0⟩, ⟨3, 0⟩, ⟨4, 0⟩] (some 1) ⟨2, 0⟩ 1 =
      .split [[⟨0, 0⟩, ⟨1, 0⟩], [⟨3, 0⟩, ⟨4, 0⟩]] ∧
    penErase [⟨0, 0⟩, ⟨10, 0⟩] (some 1) ⟨100, 100⟩ 1 = .unchanged ∧
    penErase [⟨0, 0⟩, ⟨1, 0⟩, ⟨2, 0⟩] (some 1) ⟨1, 0⟩ 1 = .split [] ∧
    (penEraseQueues "orig" [("strokeColor", "red")]
        [⟨0, 0⟩, ⟨1, 0⟩, ⟨2, 0⟩, ⟨3, 0⟩, ⟨4, 0⟩] (some 1) ⟨2, 0⟩ 1
        (fun i => Nat.repr i)).1 = ["orig"] ∧
    (penEraseQueues "orig" [("strokeColor", "red")]
        [⟨0, 0⟩, ⟨1, 0⟩, ⟨2, 0⟩, ⟨3, 0⟩, ⟨4, 0⟩] (some 1) ⟨2, 0⟩ 1
        (fun i => Nat.repr i)).2.map PenPiece.points =
      buildRuns (survivorsOf [⟨0, 0⟩, ⟨1, 0⟩, ⟨2, 0⟩, ⟨3, 0⟩, ⟨4, 0⟩] ⟨2, 0⟩ 1) :=
  ⟨by decide,
   C2_eraser_segmentation.1 [⟨0, 0⟩, ⟨10, 0⟩] (some 1) ⟨100, 100⟩ 1 (by decide),
   by decide,
   ((C2_eraser_segmentation.2.2 "orig" [("strokeColor", "red")]
      [⟨0, 0⟩, ⟨1, 0⟩, ⟨2, 0⟩, ⟨3, 0⟩, ⟨4, 0⟩] (some 1) ⟨2, 0⟩ 1 (fun i => Nat.repr i)
      (fun w hw => by injection hw with h; rw [← h]; decide)
      ⟨(2, ⟨2, 0⟩), by decide, by decide⟩)).1,
   ((C2_eraser_segmentation.2.2 "orig" [("strokeColor", "red")]
      [⟨0, 0⟩, ⟨1, 0⟩, ⟨2, 0⟩, ⟨3, 0⟩, ⟨4, 0⟩] (some 1) ⟨2, 0⟩ 1 (fun i => Nat.repr i)
      (fun w hw => by injection hw with h; rw [← h]; decide)
      ⟨(2, ⟨2, 0⟩), by decide, by decide⟩)).2.1⟩

end SketchFlow
